import Mathlib

/-!
Verification development for the anomalib fragment consisting of
`anomalib/utils/metrics/aupro.py` (the AUPRO metric) and
`anomalib/data/utils.py` (`read_image`).

Tensors are modelled as (nested) lists of rationals; float NaN produced by a
division with zero denominator that the Python code goes on to return (the
averaging of the per-region curves over zero regions, and the final
normalization by `fpr_avg[-1]` when that value is `0`) is modelled explicitly
by `Option`: `none` plays the role of a NaN-poisoned value.  Exceptions
raised by the Python code are modelled by `Except`.
-/

/- Batteries marks the arithmetic of `Rat` irreducible, which blocks the
elaborator-side evaluation of `decide` on concrete rational computations; the
kernel itself reduces them fine.  Restore default reducibility for them. -/
set_option allowUnsafeReducibility true
attribute [semireducible] Rat.inv Rat.mul Rat.add Rat.sub Rat.div Rat.ofScientific

namespace Anomalib

/-- Model of `torch.searchsorted(xs, v)` (with `right=False`) for a single
query: the first index `i` such that `v ≤ xs[i]`, or `xs.length` when no such
index exists.  Mirrors the lookup used in `AUPRO.interp1d`. -/
def searchsorted (xs : List ℚ) (v : ℚ) : ℕ :=
  match xs with
  | [] => 0
  | a :: t => if v ≤ a then 0 else searchsorted t v + 1

/-- The clamped segment index used by `AUPRO.interp1d`:
`idx = clamp(searchsorted(old_x, x) - 1, 0, old_x.size(0) - 2)`.
Natural subtraction matches the torch clamp for `old_x.size(0) ≥ 2` (the
domain on which the Python code is well defined). -/
def interpIdx (xs : List ℚ) (x : ℚ) : ℕ :=
  min (searchsorted xs x - 1) (xs.length - 2)

/-- Value of the linear interpolant of `AUPRO.interp1d` at one query point:
`old_y[i] + (old_y[i+1]-old_y[i]) / (eps + (old_x[i+1]-old_x[i])) * (x - old_x[i])`
with `i` the clamped segment index. -/
def interpAt (eps : ℚ) (oldx oldy : List ℚ) (x : ℚ) : ℚ :=
  let i := interpIdx oldx x
  let xi := oldx.getD i 0
  let xi1 := oldx.getD (i + 1) 0
  let yi := oldy.getD i 0
  let yi1 := oldy.getD (i + 1) 0
  yi + (yi1 - yi) / (eps + (xi1 - xi)) * (x - xi)

/-- Model of the static method `AUPRO.interp1d(old_x, old_y, new_x)`:
pointwise linear interpolation with slope denominator guarded by `eps`
(`torch.finfo(old_y.dtype).eps` in the source). -/
def interp1d (eps : ℚ) (oldx oldy newx : List ℚ) : List ℚ :=
  newx.map (interpAt eps oldx oldy)

/-- float32 machine epsilon `torch.finfo(torch.float32).eps = 2⁻²³`, the `eps`
used by `interp1d` on the float32 curves produced by `roc`. -/
def eps32 : ℚ := 1 / 2 ^ 23

/-- Model of `torch.trapz(y, x)`: the trapezoidal rule
`Σᵢ (x[i+1]-x[i]) * (y[i]+y[i+1]) / 2`. -/
def trapz : List ℚ → List ℚ → ℚ
  | x0 :: x1 :: xs, y0 :: y1 :: ys =>
      (x1 - x0) * (y0 + y1) / 2 + trapz (x1 :: xs) (y1 :: ys)
  | _, _ => 0

/-- Model of `tensor.min()` for a non-empty flat tensor (`0` on the empty
list, which is outside the modelled domain: torch raises there). -/
def listMin : List ℚ → ℚ
  | [] => 0
  | a :: t => t.foldl min a

/-- Model of `tensor.max()` (see `listMin`). -/
def listMax : List ℚ → ℚ
  | [] => 0
  | a :: t => t.foldl max a

/-- `l` is nondecreasing on its indices (the sortedness notion used throughout:
`getD`-indexed so that it composes with the `getD`-based definitions). -/
def NondecrOn (l : List ℚ) : Prop :=
  ∀ i j, i ≤ j → j < l.length → l.getD i 0 ≤ l.getD j 0

/-- Insert into a strictly descending list, discarding duplicates. -/
def insertDesc (a : ℚ) : List ℚ → List ℚ
  | [] => [a]
  | b :: l => if b < a then a :: b :: l else if a = b then b :: l else b :: insertDesc a l

/-- The distinct values of `l` sorted in strictly descending order: the
threshold sequence used by `torchmetrics.functional.roc` (descending unique
scores). -/
def uniqueDesc (l : List ℚ) : List ℚ := l.foldr insertDesc []

/-- Insert into a strictly ascending list of naturals, discarding duplicates. -/
def insertAsc (a : ℕ) : List ℕ → List ℕ
  | [] => [a]
  | b :: l => if a < b then a :: b :: l else if a = b then b :: l else b :: insertAsc a l

/-- Model of `tensor.unique()` on a flat integer tensor: distinct values in
strictly ascending order. -/
def uniqueAsc (l : List ℕ) : List ℕ := l.foldr insertAsc []

/-- Model of binary `torchmetrics.functional.roc(preds, target)` restricted to
the `(fpr, tpr)` components.  Thresholds are the distinct prediction scores in
descending order; at threshold `t`,
`fpr t = #{i | preds[i] ≥ t ∧ ¬target[i]} / #negatives` and
`tpr t = #{i | preds[i] ≥ t ∧ target[i]} / #positives`; torchmetrics prepends
the point `(0, 0)` (threshold `max+1`).  A zero denominator (no negatives,
resp. no positives) yields `0` here where torch produces NaN; the pipeline
below never consumes those entries in a NaN-relevant way on the states the
theorems speak about. -/
def roc (preds : List ℚ) (target : List Bool) : List ℚ × List ℚ :=
  let pairs := preds.zip target
  let negs : ℚ := ((pairs.filter fun p => !p.2).length : ℚ)
  let poss : ℚ := ((pairs.filter fun p => p.2).length : ℚ)
  let ths := uniqueDesc preds
  (0 :: ths.map fun t => ((pairs.filter fun p => !p.2 && decide (t ≤ p.1)).length : ℚ) / negs,
   0 :: ths.map fun t => ((pairs.filter fun p => p.2 && decide (t ≤ p.1)).length : ℚ) / poss)

/-- Model of `torch.where(fpr <= fpr_limit)[0]`: the (ascending) indices of the
curve points whose fpr does not exceed the limit. -/
def retainedIdx (fpr : List ℚ) (limit : ℚ) : List ℕ :=
  (List.range fpr.length).filter fun i => fpr.getD i 0 ≤ limit

/-- Model of the index rescaling in `AUPRO._compute`:
`_fpr_idx = _fpr_idx.float(); _fpr_idx /= _fpr_idx.max(); _fpr_idx *= new_idx.max()`
with `new_idx = arange(output_size)`, so `new_idx.max() = output_size - 1`. -/
def rescaleIdx (ridx : List ℕ) (os : ℕ) : List ℚ :=
  ridx.map fun (i : ℕ) => (i : ℚ) / ((ridx.foldr Nat.max 0 : ℕ) : ℚ) * ((os - 1 : ℕ) : ℚ)

/-- The resampling grid `new_idx = torch.arange(0, output_size)`. -/
def grid (os : ℕ) : List ℚ := (List.range os).map fun (i : ℕ) => (i : ℚ)

/-- The exceptions `compute()` can propagate: `empty` models the ValueError of
`dim_zero_cat` on an empty buffer, `range` the explicit `raise ValueError` of
`AUPRO._compute` (carrying the reported min/max), `reduce` the RuntimeError of
a torch reduction such as `.max()` on an empty tensor, `index` an IndexError
from a `[-1]` lookup on an empty tensor (`slope[-1]` inside `interp1d`, or
`fpr[-1]` on an empty curve) and `auc` the ValueError of
`torchmetrics.functional.auc`. -/
inductive AuproErr where
  | empty : AuproErr
  | range : ℚ → ℚ → AuproErr
  | reduce : AuproErr
  | index : AuproErr
  | auc : AuproErr
deriving DecidableEq

/-- Which of the modelled exceptions are Python ValueError-class: the
ValueError of `dim_zero_cat` on an empty buffer, the explicit range
ValueError of `AUPRO._compute` and the ValueError of
`torchmetrics.functional.auc`.  An IndexError (`index`) and the RuntimeError
of an empty-tensor reduction (`reduce`) are not ValueError-class. -/
def AuproErr.isValueError : AuproErr → Bool
  | .empty => true
  | .range _ _ => true
  | .auc => true
  | .reduce => false
  | .index => false

/-- One iteration of the per-region loop of `AUPRO._compute` for label `lab`:
build the region mask, compute its ROC curve, truncate it to `fpr ≤ limit`,
rescale the retained indices onto the common grid and resample both curves by
`interp1d`.  With no retained point, `_fpr_idx.max()` reduces an empty tensor
and the call raises (`reduce`); with exactly one retained point, `interp1d`
receives a single knot, so its `slope` tensor is empty, the clamped index is
`clamp(·, 0, -1) = -1` and `slope[-1]` raises an IndexError (`index`).
Otherwise the resampled pair is returned (the division by `_fpr_idx.max()` is
then by a nonzero value, since two distinct retained indices exist). -/
def regionCurve (eps limit : ℚ) (os : ℕ) (preds : List ℚ) (cflat : List ℕ)
    (lab : ℕ) : Except AuproErr (List ℚ × List ℚ) :=
  let mask := cflat.map fun c => decide (c = lab)
  let r := roc preds mask
  let ridx := retainedIdx r.1 limit
  if ridx.length = 0 then .error .reduce
  else if ridx.length = 1 then .error .index
  else
    let xs := rescaleIdx ridx os
    let rfpr := ridx.map fun i => r.1.getD i 0
    let rtpr := ridx.map fun i => r.2.getD i 0
    .ok (interp1d eps xs rfpr (grid os), interp1d eps xs rtpr (grid os))

/-- Elementwise sum of two curves (`tpr += _tpr` / `fpr += _fpr`). -/
def addCurve (a b : List ℚ × List ℚ) : List ℚ × List ℚ :=
  (List.zipWith (· + ·) a.1 b.1, List.zipWith (· + ·) a.2 b.2)

/-- One accumulation step of the per-region loop: a region whose computation
raised aborts the loop with that exception, otherwise its curves are added to
the running sums. -/
def addE (c acc : Except AuproErr (List ℚ × List ℚ)) :
    Except AuproErr (List ℚ × List ℚ) :=
  match c, acc with
  | .ok c, .ok acc => .ok (addCurve c acc)
  | .error e, _ => .error e
  | _, .error e => .error e

/-- The accumulation of the per-region curves into the running sums
initialised with `torch.zeros(output_size)`; an exception raised while
processing some region propagates, and the leftmost raising region wins, as
in the Python `for` loop. -/
def sumCurvesE (os : ℕ) (cs : List (Except AuproErr (List ℚ × List ℚ))) :
    Except AuproErr (List ℚ × List ℚ) :=
  cs.foldr addE (.ok (List.replicate os 0, List.replicate os 0))

/-- The final averaging `tpr /= labels.size(0); fpr /= labels.size(0)`:
`none` when there are no regions (float `0/0 = NaN`). -/
def avgCurves (n : ℕ) (c : List ℚ × List ℚ) : Option (List ℚ × List ℚ) :=
  if n = 0 then none else some (c.1.map (· / (n : ℚ)), c.2.map (· / (n : ℚ)))

/-- The whole per-region loop of `AUPRO._compute` followed by the averaging,
as a function of the processed label list.  `Except` carries an exception
raised inside the loop, the inner `Option` the NaN of averaging over zero
regions. -/
def aggCurves (eps limit : ℚ) (os : ℕ) (preds : List ℚ) (cflat : List ℕ)
    (labels : List ℕ) : Except AuproErr (Option (List ℚ × List ℚ)) :=
  match sumCurvesE os (labels.map (regionCurve eps limit os preds cflat)) with
  | .error e => .error e
  | .ok c => .ok (avgCurves labels.length c)

/-- Model of `torchmetrics.functional.auc(x, y)` (`reorder=False`): raise when
`x` is neither monotonically increasing nor monotonically decreasing,
otherwise `direction * torch.trapz(y, x)`. -/
def aucE (x y : List ℚ) : Except String ℚ :=
  if (List.zipWith (fun a b => b - a) x (x.drop 1)).any fun d => decide (d < 0) then
    if (List.zipWith (fun a b => b - a) x (x.drop 1)).all fun d => decide (d ≤ 0) then
      .ok (-(trapz x y))
    else .error "The x tensor is expected to be either increasing or decreasing."
  else .ok (trapz x y)

/-- Label of cell `(r, c)` of a 2D label map, `0` outside the map. -/
def cell (lab : List (List ℕ)) (r c : ℕ) : ℕ := (lab.getD r []).getD c 0

/-- Maximum label over the 3×3 neighbourhood of `(r, c)` (zero padding);
natural subtraction makes the border rows/columns repeat, which is harmless
under `max`.  This is the `max_pool2d(kernel_size=3, stride=1, padding=1)`
of the iterative labeling. -/
def nbMax (lab : List (List ℕ)) (r c : ℕ) : ℕ :=
  max (max (max (cell lab (r - 1) (c - 1)) (max (cell lab (r - 1) c) (cell lab (r - 1) (c + 1))))
           (max (cell lab r (c - 1)) (max (cell lab r c) (cell lab r (c + 1)))))
      (max (cell lab (r + 1) (c - 1)) (max (cell lab (r + 1) c) (cell lab (r + 1) (c + 1))))

/-- One propagation step of the iterative connected-component labeling:
foreground cells take the maximum label of their 8-neighbourhood, background
cells stay `0`. -/
def ccaStep (mask : List (List Bool)) (lab : List (List ℕ)) : List (List ℕ) :=
  mask.mapIdx fun r row => row.mapIdx fun c m => if m then nbMax lab r c else 0

/-- Iterate a function `n` times. -/
def iterN (f : α → α) : ℕ → α → α
  | 0, a => a
  | n + 1, a => iterN f n (f a)

/-- Modelled from the spec (external dependency
`kornia.contrib.connected_components`, interface per spec §3/§9: binary mask
in, same-shaped integer label map out, a unique positive id per maximal
8-connected foreground component, label `0` reserved for background):
label one image, foreground = pixels equal to `1`, initial labels
`offset + linear index + 1`, propagated to the componentwise maximum. -/
def ccaImage (offset : ℕ) (img : List (List ℚ)) : List (List ℕ) :=
  let mask := img.map fun row => row.map fun v => decide (v = 1)
  let w := (img.headD []).length
  let init := mask.mapIdx fun r row => row.mapIdx fun c m =>
    if m then offset + r * w + c + 1 else 0
  iterN (ccaStep mask) (img.map List.length).sum init

/-- Connected-component labeling of a batch of images, with offsets keeping
labels unique across the batch (kornia numbers by batch-global linear index). -/
def ccaBatch (offset : ℕ) : List (List (List ℚ)) → List (List (List ℕ))
  | [] => []
  | img :: rest => ccaImage offset img :: ccaBatch (offset + (img.map List.length).sum) rest

/-- The state of the `AUPRO` metric: the two growable buffers registered by
`add_state` (each entry one `update` batch of shape `(N, H, W)`) and the
configured `fpr_limit`. -/
structure AUPROState where
  preds : List (List (List (List ℚ)))
  target : List (List (List (List ℚ)))
  fpr_limit : ℚ
deriving DecidableEq

/-- `dim_zero_cat(self.target)`: the accumulated target images. -/
def AUPROState.timgs (s : AUPROState) : List (List (List ℚ)) := s.target.flatten

/-- The flattened accumulated target. -/
def AUPROState.tflat (s : AUPROState) : List ℚ := s.timgs.flatten.flatten

/-- The flattened accumulated predictions. -/
def AUPROState.pflat (s : AUPROState) : List ℚ := s.preds.flatten.flatten.flatten

/-- The flattened connected-component label map `cca` of the target. -/
def AUPROState.cflat (s : AUPROState) : List ℕ := (ccaBatch 0 s.timgs).flatten.flatten

/-- `output_size`: the number of global ROC points with `fpr ≤ fpr_limit`. -/
def AUPROState.gos (s : AUPROState) : ℕ :=
  (retainedIdx (roc s.pflat (s.tflat.map fun v => decide (v = 1))).1 s.fpr_limit).length

/-- `labels = cca.unique()[1:]`. -/
def AUPROState.labels (s : AUPROState) : List ℕ := (uniqueAsc s.cflat).drop 1

deriving instance DecidableEq for Except

/-- Model of `AUPRO._compute`: concatenate the buffers, validate the target
range, label the regions, and aggregate the per-region resampled curves.
`Except` carries the raised exception, the inner `Option` NaN poisoning. -/
def AUPROState.computeCurves (s : AUPROState) :
    Except AuproErr (Option (List ℚ × List ℚ)) :=
  if s.target.isEmpty then .error .empty
  else if s.preds.isEmpty then .error .empty
  else if s.tflat.isEmpty then .error .empty
  else if listMin s.tflat < 0 ∨ 1 < listMax s.tflat then
    .error (.range (listMin s.tflat) (listMax s.tflat))
  else aggCurves eps32 s.fpr_limit s.gos s.pflat s.cflat s.labels

/-- The tail of `AUPRO.compute`: `aupro = auc(fpr, tpr); aupro = aupro / fpr[-1]`.
A NaN-poisoned curve stays NaN, and float `x / 0` on the final
normalization produces NaN/inf, modelled as `none`. -/
def scoreOfCurves (c : Option (List ℚ × List ℚ)) : Except AuproErr (Option ℚ) :=
  match c with
  | none => .ok none
  | some (fpr, tpr) =>
    match aucE fpr tpr with
    | .error _ => .error .auc
    | .ok area =>
      match fpr.getLast? with
      | none => .error .index
      | some l => .ok (if l = 0 then none else some (area / l))

/-- Model of `AUPRO.compute`. -/
def AUPROState.compute (s : AUPROState) : Except AuproErr (Option ℚ) :=
  match s.computeCurves with
  | .error e => .error e
  | .ok c => scoreOfCurves c

/-- Model of `AUPRO.update`: appends the batch to both buffers.  The source
performs no validation whatsoever, so the call never fails; the `Except`
return type records exactly that. -/
def AUPROState.update (s : AUPROState) (preds target : List (List (List ℚ))) :
    Except AuproErr AUPROState :=
  .ok { s with target := s.target ++ [target], preds := s.preds ++ [preds] }

/-- `batch.shape` of an `(N, H, W)` batch in the list model. -/
def batchShape (b : List (List (List ℚ))) : ℕ × ℕ × ℕ :=
  (b.length, (b.headD []).length, ((b.headD []).headD []).length)

/-- State-passing model of the method `AUPRO._compute`: the body only reads
`self.preds`, `self.target` and `self.fpr_limit` (all local names are rebound
to freshly created tensors, and the in-place tensor operations `/=`, `*=`,
`+=` act on those locals), so the resulting state is the state it ran on. -/
def AUPROState.computeCurvesM (s : AUPROState) :
    Except AuproErr (Option (List ℚ × List ℚ)) × AUPROState :=
  (s.computeCurves, s)

/-- State-passing model of the method `AUPRO.compute`: runs `_compute` on the
current state, then pure tensor arithmetic. -/
def AUPROState.computeM (s : AUPROState) : Except AuproErr (Option ℚ) × AUPROState :=
  let p := s.computeCurvesM
  ((match p.1 with
    | .error e => .error e
    | .ok c => scoreOfCurves c),
   p.2)

/-- The data `AUPRO.generate_figure` passes to the external `plot_figure`
collaborator, plus the returned title: the model of the produced figure. -/
structure FigureData where
  curves : Option (List ℚ × List ℚ)
  score : Option ℚ
  xlim : ℚ × ℚ
  ylim : ℚ × ℚ
  xlabel : String
  ylabel : String
  loc : String
  title : String
deriving DecidableEq

/-- State-passing model of `AUPRO.generate_figure`: calls `self._compute()`,
then `self.compute()`, and hands fixed axis ranges, labels, legend location
and the title to the plotting collaborator, returning the figure
together with the string caption. -/
def AUPROState.generateFigureM (s : AUPROState) :
    Except AuproErr (FigureData × String) × AUPROState :=
  let p := s.computeCurvesM
  let q := p.2.computeM
  ((match p.1, q.1 with
    | .error e, _ => .error e
    | _, .error e => .error e
    | .ok c, .ok a =>
      .ok ({ curves := c, score := a, xlim := (0, q.2.fpr_limit), ylim := (0, 1),
             xlabel := "Global FPR", ylabel := "Averaged Per-Region TPR",
             loc := "lower right", title := "PRO" }, "PRO")),
   q.2)

/-- A decoded raster image: rows of `(blue, green, red)` pixels, the layout
`cv2.imread` produces (`IMREAD_COLOR` always yields 3 channels). -/
def BGRImage := List (List (ℕ × ℕ × ℕ))

/-- The error `cv2.cvtColor` raises when handed the null result of a failed
`cv2.imread` (missing path or undecodable file): the model of the failure
`read_image` surfaces, the spec's FileReadError. -/
inductive CvErr where
  | emptySrc : CvErr
deriving DecidableEq

/-- `cv2.cvtColor(image, cv2.COLOR_BGR2RGB)`: swap first and third channel of
every pixel. -/
def cvtColorBGR2RGB (img : List (List (ℕ × ℕ × ℕ))) : List (List (ℕ × ℕ × ℕ)) :=
  img.map fun row => row.map fun p => (p.2.2, p.2.1, p.1)

/-- Model of `anomalib.data.utils.read_image`.  The filesystem/decoder
boundary `cv2.imread(path)` is modelled by its result: `none` when the path
does not exist or the file cannot be decoded (cv2 returns None there, without
raising), `some img` otherwise.  `read_image` feeds that result straight into
`cv2.cvtColor`, which raises on a null source and otherwise returns the
RGB-reordered image. -/
def read_image (decoded : Option BGRImage) : Except CvErr (List (List (ℕ × ℕ × ℕ))) :=
  match decoded with
  | none => .error .emptySrc
  | some img => .ok (cvtColorBGR2RGB img)

/-- The properties a successfully resampled per-region curve pair enjoys
(established by `regionCurve_props`). -/
def CurveProps (os : ℕ) (p : List ℚ × List ℚ) : Prop :=
  p.1.length = os ∧ p.2.length = os ∧ NondecrOn p.1 ∧
    (∀ k, k < os → 0 ≤ p.1.getD k 0) ∧
    (∀ k, k < os → 0 ≤ p.2.getD k 0 ∧ p.2.getD k 0 ≤ 1)

/-- Bounds-checked variant of the interpolant, used to state the memory
safety of `interp1d`: every tensor lookup is checked (`none` on an
out-of-bounds index) and the slope division is checked (`none` on a zero
denominator). -/
def interpAtSafe (eps : ℚ) (oldx oldy : List ℚ) (x : ℚ) : Option ℚ :=
  (oldx[interpIdx oldx x]?).bind fun xi =>
    (oldx[interpIdx oldx x + 1]?).bind fun xi1 =>
      (oldy[interpIdx oldx x]?).bind fun yi =>
        (oldy[interpIdx oldx x + 1]?).bind fun yi1 =>
          if eps + (xi1 - xi) = 0 then none
          else some (yi + (yi1 - yi) / (eps + (xi1 - xi)) * (x - xi))

/-- All-or-nothing map over a list with a checked elementwise function. -/
def traverseO {α β : Type} (f : α → Option β) : List α → Option (List β)
  | [] => some []
  | a :: t =>
    match f a, traverseO f t with
    | some b, some bs => some (b :: bs)
    | _, _ => none

/-- Bounds-checked variant of `interp1d` (see `interpAtSafe`). -/
def interp1dSafe (eps : ℚ) (oldx oldy newx : List ℚ) : Option (List ℚ) :=
  traverseO (interpAtSafe eps oldx oldy) newx

/-! ### Helper lemmas: searchsorted -/

theorem searchsorted_le_length (xs : List ℚ) (v : ℚ) : searchsorted xs v ≤ xs.length := by
  induction xs with
  | nil => simp [searchsorted]
  | cons a t ih =>
      by_cases h : v ≤ a
      · simp [searchsorted, h]
      · simpa [searchsorted, h] using ih

theorem le_getD_searchsorted (xs : List ℚ) (v : ℚ)
    (h : searchsorted xs v < xs.length) : v ≤ xs.getD (searchsorted xs v) 0 := by
  induction xs with
  | nil => simp [searchsorted] at h
  | cons a t ih =>
      by_cases hva : v ≤ a
      · simp [searchsorted, hva]
      · simp only [searchsorted, hva, if_false, List.length_cons] at h ⊢
        simpa using ih (by omega)

theorem getD_lt_of_lt_searchsorted (xs : List ℚ) (v : ℚ) (i : ℕ)
    (h : i < searchsorted xs v) : xs.getD i 0 < v := by
  induction xs generalizing i with
  | nil => simp [searchsorted] at h
  | cons a t ih =>
      by_cases hva : v ≤ a
      · simp [searchsorted, hva] at h
      · simp only [searchsorted, hva, if_false] at h
        match i with
        | 0 => simpa using lt_of_not_le hva
        | i + 1 => simpa using ih i (by omega)

theorem searchsorted_mono (xs : List ℚ) {v w : ℚ} (hvw : v ≤ w) :
    searchsorted xs v ≤ searchsorted xs w := by
  induction xs with
  | nil => simp [searchsorted]
  | cons a t ih =>
      by_cases hwa : w ≤ a
      · have hva : v ≤ a := le_trans hvw hwa
        simp [searchsorted, hva, hwa]
      · by_cases hva : v ≤ a
        · simp [searchsorted, hva, hwa]
        · simp only [searchsorted, hva, hwa, if_false]
          omega

theorem searchsorted_le_of_le_last (xs : List ℚ) (v : ℚ) (_hne : 0 < xs.length)
    (h : v ≤ xs.getD (xs.length - 1) 0) : searchsorted xs v ≤ xs.length - 1 := by
  by_contra hc
  have hss : xs.length - 1 < searchsorted xs v := by omega
  exact absurd h (not_le.mpr (getD_lt_of_lt_searchsorted xs v _ hss))

/-! ### Helper lemmas: lists -/

theorem nondecrOn_tail {a : ℚ} {l : List ℚ} (h : NondecrOn (a :: l)) : NondecrOn l := by
  intro i j hij hj
  have := h (i + 1) (j + 1) (by omega) (by simpa using Nat.succ_lt_succ hj)
  simpa using this

theorem nondecrOn_adj {l : List ℚ} (h : NondecrOn l) (k : ℕ) (hk : k + 1 < l.length) :
    l.getD k 0 ≤ l.getD (k + 1) 0 :=
  h k (k + 1) (by omega) hk

theorem getLast?_eq_getD (l : List ℚ) (hne : l ≠ []) :
    l.getLast? = some (l.getD (l.length - 1) 0) := by
  induction l with
  | nil => simp at hne
  | cons a t ih =>
      match t with
      | [] => simp
      | b :: t' => simpa [List.getLast?_cons_cons] using ih (by simp)

theorem getD_mem {α : Type} {l : List α} {i : ℕ} {d : α} (h : i < l.length) :
    l.getD i d ∈ l := by
  rw [List.getD_eq_getElem l d h]
  exact List.getElem_mem h

theorem foldr_max_le {l : List ℕ} {b : ℕ} (h : ∀ i ∈ l, i ≤ b) :
    l.foldr Nat.max 0 ≤ b := by
  induction l with
  | nil => simp
  | cons a t ih =>
      simp only [List.foldr_cons]
      exact max_le (h a (by simp)) (ih fun i hi => h i (by simp [hi]))

theorem le_foldr_max {l : List ℕ} {i : ℕ} (h : i ∈ l) : i ≤ l.foldr Nat.max 0 := by
  induction l with
  | nil => simp at h
  | cons a t ih =>
      simp only [List.foldr_cons]
      rcases List.mem_cons.mp h with rfl | hm
      · exact le_max_left _ _
      · exact le_trans (ih hm) (le_max_right _ _)

theorem foldr_max_eq_last {l : List ℕ} (h : List.Pairwise (· < ·) l) :
    l.foldr Nat.max 0 = l.getD (l.length - 1) 0 := by
  induction l with
  | nil => simp
  | cons a t ih =>
      match t with
      | [] => simp
      | b :: t' =>
          have hpw := List.pairwise_cons.mp h
          have htail := ih hpw.2
          have hmem : (b :: t').getD ((b :: t').length - 1) 0 ∈ b :: t' :=
            getD_mem (by simp)
          have hale : a ≤ (b :: t').getD ((b :: t').length - 1) 0 :=
            le_of_lt (hpw.1 _ hmem)
          simp only [List.foldr_cons] at htail ⊢
          rw [htail]
          show Max.max a ((b :: t').getD ((b :: t').length - 1) 0) = _
          rw [max_eq_right hale]
          simp

/-! ### Helper lemmas: the interpolant -/

theorem interpAt_def (eps : ℚ) (xs ys : List ℚ) (x : ℚ) :
    interpAt eps xs ys x =
      ys.getD (interpIdx xs x) 0 +
        (ys.getD (interpIdx xs x + 1) 0 - ys.getD (interpIdx xs x) 0) /
            (eps + (xs.getD (interpIdx xs x + 1) 0 - xs.getD (interpIdx xs x) 0)) *
          (x - xs.getD (interpIdx xs x) 0) := rfl

theorem interpIdx_add_one_lt (xs : List ℚ) (x : ℚ) (h2 : 2 ≤ xs.length) :
    interpIdx xs x + 1 < xs.length := by
  unfold interpIdx; omega

/-- Case analysis at a query point lying between the first and last knot:
either the query is at (or left of) the first knot and the interpolant returns
the first y-value exactly, or the clamped index brackets the query. -/
theorem interpAt_cases (eps : ℚ) (xs ys : List ℚ) (x : ℚ) (h2 : 2 ≤ xs.length)
    (hlo : xs.getD 0 0 ≤ x) (hhi : x ≤ xs.getD (xs.length - 1) 0) :
    (interpIdx xs x = 0 ∧ x = xs.getD 0 0 ∧ interpAt eps xs ys x = ys.getD 0 0) ∨
    (xs.getD (interpIdx xs x) 0 < x ∧ x ≤ xs.getD (interpIdx xs x + 1) 0) := by
  rcases Nat.eq_zero_or_pos (searchsorted xs x) with hss | hss
  · left
    have hi0 : interpIdx xs x = 0 := by unfold interpIdx; omega
    have hxle : x ≤ xs.getD 0 0 := by
      have := le_getD_searchsorted xs x (by omega)
      rwa [hss] at this
    have hxeq : x = xs.getD 0 0 := le_antisymm hxle hlo
    refine ⟨hi0, hxeq, ?_⟩
    rw [interpAt_def, hi0, hxeq, sub_self, mul_zero, add_zero]
  · right
    have hle : searchsorted xs x ≤ xs.length - 1 :=
      searchsorted_le_of_le_last xs x (by omega) hhi
    have hi : interpIdx xs x = searchsorted xs x - 1 := by unfold interpIdx; omega
    constructor
    · rw [hi]
      exact getD_lt_of_lt_searchsorted xs x _ (by omega)
    · have hi1 : interpIdx xs x + 1 = searchsorted xs x := by omega
      rw [hi1]
      exact le_getD_searchsorted xs x (by omega)

theorem interpAt_ge (eps : ℚ) (xs ys : List ℚ) (x : ℚ) (heps : 0 < eps)
    (hlen : ys.length = xs.length) (h2 : 2 ≤ xs.length)
    (hxs : NondecrOn xs) (hys : NondecrOn ys)
    (hlo : xs.getD 0 0 ≤ x) (hhi : x ≤ xs.getD (xs.length - 1) 0) :
    ys.getD (interpIdx xs x) 0 ≤ interpAt eps xs ys x := by
  rcases interpAt_cases eps xs ys x h2 hlo hhi with ⟨hi0, _, hval⟩ | ⟨hl, _⟩
  · rw [hval, hi0]
  · set i := interpIdx xs x with hidef
    have hi1 : i + 1 < xs.length := interpIdx_add_one_lt xs x h2
    have hdx : 0 ≤ xs.getD (i + 1) 0 - xs.getD i 0 :=
      sub_nonneg.mpr (nondecrOn_adj hxs i hi1)
    have hdy : 0 ≤ ys.getD (i + 1) 0 - ys.getD i 0 :=
      sub_nonneg.mpr (nondecrOn_adj hys i (by omega))
    have hden : 0 < eps + (xs.getD (i + 1) 0 - xs.getD i 0) := by linarith
    rw [interpAt_def]
    have : 0 ≤ (ys.getD (i + 1) 0 - ys.getD i 0) /
        (eps + (xs.getD (i + 1) 0 - xs.getD i 0)) * (x - xs.getD i 0) :=
      mul_nonneg (div_nonneg hdy (le_of_lt hden)) (by linarith)
    linarith

theorem interpAt_le (eps : ℚ) (xs ys : List ℚ) (x : ℚ) (heps : 0 < eps)
    (hlen : ys.length = xs.length) (h2 : 2 ≤ xs.length)
    (hxs : NondecrOn xs) (hys : NondecrOn ys)
    (hlo : xs.getD 0 0 ≤ x) (hhi : x ≤ xs.getD (xs.length - 1) 0) :
    interpAt eps xs ys x ≤ ys.getD (interpIdx xs x + 1) 0 := by
  rcases interpAt_cases eps xs ys x h2 hlo hhi with ⟨hi0, _, hval⟩ | ⟨hl, hr⟩
  · rw [hval, hi0]
    exact hys 0 1 (by omega) (by omega)
  · set i := interpIdx xs x with hidef
    have hi1 : i + 1 < xs.length := interpIdx_add_one_lt xs x h2
    have hdx : 0 ≤ xs.getD (i + 1) 0 - xs.getD i 0 :=
      sub_nonneg.mpr (nondecrOn_adj hxs i hi1)
    have hdy : 0 ≤ ys.getD (i + 1) 0 - ys.getD i 0 :=
      sub_nonneg.mpr (nondecrOn_adj hys i (by omega))
    have hden : 0 < eps + (xs.getD (i + 1) 0 - xs.getD i 0) := by linarith
    have hth : (x - xs.getD i 0) / (eps + (xs.getD (i + 1) 0 - xs.getD i 0)) ≤ 1 :=
      (div_le_one hden).mpr (by linarith)
    have hth0 : 0 ≤ (x - xs.getD i 0) / (eps + (xs.getD (i + 1) 0 - xs.getD i 0)) :=
      div_nonneg (by linarith) (le_of_lt hden)
    rw [interpAt_def]
    have hrw : (ys.getD (i + 1) 0 - ys.getD i 0) /
          (eps + (xs.getD (i + 1) 0 - xs.getD i 0)) * (x - xs.getD i 0) =
        (ys.getD (i + 1) 0 - ys.getD i 0) *
          ((x - xs.getD i 0) / (eps + (xs.getD (i + 1) 0 - xs.getD i 0))) := by
      ring
    rw [hrw]
    nlinarith [mul_le_mul_of_nonneg_left hth hdy]

theorem interpAt_mono (eps : ℚ) (xs ys : List ℚ) (x x' : ℚ) (heps : 0 < eps)
    (hlen : ys.length = xs.length) (h2 : 2 ≤ xs.length)
    (hxs : NondecrOn xs) (hys : NondecrOn ys) (hxx : x ≤ x')
    (hlo : xs.getD 0 0 ≤ x) (hhi : x' ≤ xs.getD (xs.length - 1) 0) :
    interpAt eps xs ys x ≤ interpAt eps xs ys x' := by
  have hlo' : xs.getD 0 0 ≤ x' := le_trans hlo hxx
  have hhi0 : x ≤ xs.getD (xs.length - 1) 0 := le_trans hxx hhi
  have hii : interpIdx xs x ≤ interpIdx xs x' := by
    have := searchsorted_mono xs hxx
    unfold interpIdx; omega
  rcases Nat.lt_or_ge (interpIdx xs x) (interpIdx xs x') with hlt | hge
  · have h1 : interpAt eps xs ys x ≤ ys.getD (interpIdx xs x + 1) 0 :=
      interpAt_le eps xs ys x heps hlen h2 hxs hys hlo hhi0
    have h3 : ys.getD (interpIdx xs x') 0 ≤ interpAt eps xs ys x' :=
      interpAt_ge eps xs ys x' heps hlen h2 hxs hys hlo' hhi
    have hi1 : interpIdx xs x' + 1 < xs.length := interpIdx_add_one_lt xs x' h2
    have h2' : ys.getD (interpIdx xs x + 1) 0 ≤ ys.getD (interpIdx xs x') 0 :=
      hys _ _ (by omega) (by omega)
    linarith
  · have hieq : interpIdx xs x = interpIdx xs x' := by omega
    set i := interpIdx xs x with hidef
    have hi1 : i + 1 < xs.length := interpIdx_add_one_lt xs x h2
    have hdx : 0 ≤ xs.getD (i + 1) 0 - xs.getD i 0 :=
      sub_nonneg.mpr (nondecrOn_adj hxs i hi1)
    have hdy : 0 ≤ ys.getD (i + 1) 0 - ys.getD i 0 :=
      sub_nonneg.mpr (nondecrOn_adj hys i (by omega))
    have hden : 0 < eps + (xs.getD (i + 1) 0 - xs.getD i 0) := by linarith
    rw [interpAt_def, interpAt_def, ← hieq]
    have hslope : 0 ≤ (ys.getD (i + 1) 0 - ys.getD i 0) /
        (eps + (xs.getD (i + 1) 0 - xs.getD i 0)) :=
      div_nonneg hdy (le_of_lt hden)
    nlinarith [mul_le_mul_of_nonneg_left (sub_le_sub_right hxx (xs.getD i 0)) hslope]

/-! ### Helper lemmas: the ROC model -/

theorem mem_insertDesc {a c : ℚ} {l : List ℚ} : c ∈ insertDesc a l ↔ c = a ∨ c ∈ l := by
  induction l with
  | nil => simp [insertDesc]
  | cons b t ih =>
      by_cases h1 : b < a
      · simp [insertDesc, h1]
      · by_cases h2 : a = b
        · subst h2
          have hrw : insertDesc a (a :: t) = a :: t := by
            simp [insertDesc, h1]
          rw [hrw]
          simp only [List.mem_cons]
          tauto
        · simp only [insertDesc, if_neg h1, if_neg h2, List.mem_cons, ih]
          tauto

theorem pairwise_gt_insertDesc {a : ℚ} {l : List ℚ}
    (h : List.Pairwise (· > ·) l) : List.Pairwise (· > ·) (insertDesc a l) := by
  induction l with
  | nil => simp [insertDesc]
  | cons b t ih =>
      rcases List.pairwise_cons.mp h with ⟨hb, ht⟩
      by_cases h1 : b < a
      · simp only [insertDesc, if_pos h1]
        refine List.pairwise_cons.mpr ⟨?_, h⟩
        intro c hc
        rcases List.mem_cons.mp hc with rfl | hct
        · exact h1
        · exact lt_trans (hb c hct) h1
      · by_cases h2 : a = b
        · simp only [insertDesc, if_neg h1, if_pos h2]
          exact h
        · simp only [insertDesc, if_neg h1, if_neg h2]
          refine List.pairwise_cons.mpr ⟨?_, ih ht⟩
          intro c hc
          rcases mem_insertDesc.mp hc with rfl | hct
          · exact lt_of_le_of_ne (not_lt.mp h1) h2
          · exact hb c hct

theorem pairwise_gt_uniqueDesc (l : List ℚ) : List.Pairwise (· > ·) (uniqueDesc l) := by
  induction l with
  | nil => simp [uniqueDesc]
  | cons a t ih =>
      show List.Pairwise (· > ·) (insertDesc a (uniqueDesc t))
      exact pairwise_gt_insertDesc ih

theorem length_filter_le_of_imp {α : Type} (l : List α) {p q : α → Bool}
    (h : ∀ a, p a = true → q a = true) :
    (l.filter p).length ≤ (l.filter q).length :=
  (List.monotone_filter_right l h).length_le

theorem natDiv_unit {c d : ℕ} (h : c ≤ d) :
    0 ≤ (c : ℚ) / (d : ℚ) ∧ (c : ℚ) / (d : ℚ) ≤ 1 := by
  refine ⟨by positivity, ?_⟩
  rcases Nat.eq_zero_or_pos d with rfl | hd
  · have : c = 0 := by omega
    simp [this]
  · have hd' : (0 : ℚ) < d := by exact_mod_cast hd
    exact (div_le_one hd').mpr (by exact_mod_cast h)

theorem natDiv_mono {c1 c2 d : ℕ} (h : c1 ≤ c2) :
    (c1 : ℚ) / (d : ℚ) ≤ (c2 : ℚ) / (d : ℚ) := by
  rcases Nat.eq_zero_or_pos d with rfl | hd
  · simp
  · have hd' : (0 : ℚ) < d := by exact_mod_cast hd
    exact (div_le_div_iff_of_pos_right hd').mpr (by exact_mod_cast h)

/-- The two roc components share the shape `0 :: ths.map g` with `g` antitone
and `[0,1]`-valued; such a list is nondecreasing. -/
theorem nondecrOn_zero_cons_map (ths : List ℚ) (g : ℚ → ℚ)
    (hpw : List.Pairwise (· > ·) ths) (hnn : ∀ t, 0 ≤ g t)
    (hanti : ∀ a b, b ≤ a → g a ≤ g b) : NondecrOn (0 :: ths.map g) := by
  have hget := List.pairwise_iff_getElem.mp hpw
  intro i j hij hj
  match i, j with
  | 0, 0 => exact le_refl _
  | 0, j + 1 =>
      have hjl : j < ths.length := by simpa using hj
      rw [List.getD_cons_zero, List.getD_cons_succ,
        List.getD_eq_getElem _ _ (by simpa using hjl), List.getElem_map]
      exact hnn _
  | i + 1, j + 1 =>
      have hjl : j < ths.length := by simpa using hj
      have hil : i < ths.length := by omega
      rw [List.getD_cons_succ, List.getD_cons_succ,
        List.getD_eq_getElem _ _ (by simpa using hil),
        List.getD_eq_getElem _ _ (by simpa using hjl),
        List.getElem_map, List.getElem_map]
      rcases Nat.lt_or_ge i j with hlt | hge
      · exact hanti _ _ (le_of_lt (hget i j hil hjl hlt))
      · have : i = j := by omega
        subst this
        exact le_refl _

theorem bounds_zero_cons_map (ths : List ℚ) (g : ℚ → ℚ)
    (hnn : ∀ t, 0 ≤ g t) (hle : ∀ t, g t ≤ 1) :
    ∀ k, k < (0 :: ths.map g).length →
      0 ≤ (0 :: ths.map g).getD k 0 ∧ (0 :: ths.map g).getD k 0 ≤ 1 := by
  intro k hk
  match k with
  | 0 => simp
  | k + 1 =>
      have hkl : k < ths.length := by simpa using hk
      rw [List.getD_cons_succ, List.getD_eq_getElem _ _ (by simpa using hkl),
        List.getElem_map]
      exact ⟨hnn _, hle _⟩

theorem roc_fst (p : List ℚ) (t : List Bool) :
    (roc p t).1 = 0 :: (uniqueDesc p).map fun th =>
      (((p.zip t).filter fun q => !q.2 && decide (th ≤ q.1)).length : ℚ) /
        (((p.zip t).filter fun q => !q.2).length : ℚ) := rfl

theorem roc_snd (p : List ℚ) (t : List Bool) :
    (roc p t).2 = 0 :: (uniqueDesc p).map fun th =>
      (((p.zip t).filter fun q => q.2 && decide (th ≤ q.1)).length : ℚ) /
        (((p.zip t).filter fun q => q.2).length : ℚ) := rfl

theorem roc_fst_nondecr (p : List ℚ) (t : List Bool) : NondecrOn (roc p t).1 := by
  rw [roc_fst]
  refine nondecrOn_zero_cons_map _ _ (pairwise_gt_uniqueDesc p) (fun th => ?_) ?_
  · exact div_nonneg (Nat.cast_nonneg _) (Nat.cast_nonneg _)
  · intro a b hba
    refine natDiv_mono (length_filter_le_of_imp _ fun q hq => ?_)
    rcases Bool.and_eq_true_iff.mp hq with ⟨hq1, hq2⟩
    exact Bool.and_eq_true_iff.mpr ⟨hq1, decide_eq_true (le_trans hba (of_decide_eq_true hq2))⟩

theorem roc_snd_nondecr (p : List ℚ) (t : List Bool) : NondecrOn (roc p t).2 := by
  rw [roc_snd]
  refine nondecrOn_zero_cons_map _ _ (pairwise_gt_uniqueDesc p) (fun th => ?_) ?_
  · exact div_nonneg (Nat.cast_nonneg _) (Nat.cast_nonneg _)
  · intro a b hba
    refine natDiv_mono (length_filter_le_of_imp _ fun q hq => ?_)
    rcases Bool.and_eq_true_iff.mp hq with ⟨hq1, hq2⟩
    exact Bool.and_eq_true_iff.mpr ⟨hq1, decide_eq_true (le_trans hba (of_decide_eq_true hq2))⟩

theorem roc_fst_bounds (p : List ℚ) (t : List Bool) :
    ∀ k, k < (roc p t).1.length →
      0 ≤ (roc p t).1.getD k 0 ∧ (roc p t).1.getD k 0 ≤ 1 := by
  rw [roc_fst]
  refine bounds_zero_cons_map _ _ (fun th => ?_) (fun th => ?_)
  · exact div_nonneg (Nat.cast_nonneg _) (Nat.cast_nonneg _)
  · exact (natDiv_unit (length_filter_le_of_imp _ fun q hq =>
      (Bool.and_eq_true_iff.mp hq).1)).2

theorem roc_snd_bounds (p : List ℚ) (t : List Bool) :
    ∀ k, k < (roc p t).2.length →
      0 ≤ (roc p t).2.getD k 0 ∧ (roc p t).2.getD k 0 ≤ 1 := by
  rw [roc_snd]
  refine bounds_zero_cons_map _ _ (fun th => ?_) (fun th => ?_)
  · exact div_nonneg (Nat.cast_nonneg _) (Nat.cast_nonneg _)
  · exact (natDiv_unit (length_filter_le_of_imp _ fun q hq =>
      (Bool.and_eq_true_iff.mp hq).1)).2

theorem roc_fst_getD_zero (p : List ℚ) (t : List Bool) : (roc p t).1.getD 0 0 = 0 := rfl

theorem roc_fst_ne_nil (p : List ℚ) (t : List Bool) : (roc p t).1 ≠ [] := by
  rw [roc_fst]; simp

theorem roc_length_eq (p : List ℚ) (t : List Bool) :
    (roc p t).2.length = (roc p t).1.length := by
  rw [roc_fst, roc_snd]; simp

/-! ### Helper lemmas: retained indices and rescaling -/

theorem pairwise_lt_retainedIdx (f : List ℚ) (limit : ℚ) :
    List.Pairwise (· < ·) (retainedIdx f limit) :=
  List.Pairwise.filter _ (List.pairwise_lt_range _)

theorem mem_retainedIdx {f : List ℚ} {limit : ℚ} {i : ℕ} :
    i ∈ retainedIdx f limit ↔ i < f.length ∧ f.getD i 0 ≤ limit := by
  simp [retainedIdx, List.mem_filter, List.mem_range]

theorem sorted_head_zero {l : List ℕ} (hpw : List.Pairwise (· < ·) l) (h0 : 0 ∈ l) :
    l.getD 0 0 = 0 := by
  match l with
  | [] => simp at h0
  | a :: t =>
      rcases List.mem_cons.mp h0 with rfl | hm
      · simp
      · have := (List.pairwise_cons.mp hpw).1 0 hm
        omega

theorem two_le_length_of_two_mem {α : Type} {l : List α} {a b : α}
    (ha : a ∈ l) (hb : b ∈ l) (hab : a ≠ b) : 2 ≤ l.length := by
  match l with
  | [] => simp at ha
  | [c] =>
      simp only [List.mem_singleton] at ha hb
      exact absurd (ha.trans hb.symm) hab
  | _ :: _ :: _ => simp [List.length]

theorem foldr_max_mem {l : List ℕ} (hpw : List.Pairwise (· < ·) l) (hne : l ≠ []) :
    l.foldr Nat.max 0 ∈ l := by
  rw [foldr_max_eq_last hpw]
  exact getD_mem (by
    match l with
    | [] => simp at hne
    | a :: t => simp)

theorem rescaleIdx_length (ridx : List ℕ) (os : ℕ) :
    (rescaleIdx ridx os).length = ridx.length := by simp [rescaleIdx]

theorem rescaleIdx_getD (ridx : List ℕ) (os : ℕ) {k : ℕ} (hk : k < ridx.length) :
    (rescaleIdx ridx os).getD k 0 =
      ((ridx.getD k 0 : ℕ) : ℚ) / ((ridx.foldr Nat.max 0 : ℕ) : ℚ) * ((os - 1 : ℕ) : ℚ) := by
  rw [List.getD_eq_getElem _ _ (by simpa [rescaleIdx] using hk)]
  simp only [rescaleIdx, List.getElem_map]
  rw [List.getD_eq_getElem _ _ hk]

theorem nondecrOn_rescaleIdx (ridx : List ℕ) (os : ℕ)
    (hpw : List.Pairwise (· < ·) ridx) : NondecrOn (rescaleIdx ridx os) := by
  have hget := List.pairwise_iff_getElem.mp hpw
  intro i j hij hj
  rw [rescaleIdx_length] at hj
  have hi : i < ridx.length := by omega
  rw [rescaleIdx_getD ridx os hi, rescaleIdx_getD ridx os hj]
  have hmono : ridx.getD i 0 ≤ ridx.getD j 0 := by
    rcases Nat.lt_or_ge i j with hlt | hge
    · rw [List.getD_eq_getElem _ _ hi, List.getD_eq_getElem _ _ hj]
      exact le_of_lt (hget i j hi hj hlt)
    · have : i = j := by omega
      subst this
      exact le_refl _
  exact mul_le_mul_of_nonneg_right (natDiv_mono hmono) (Nat.cast_nonneg _)

theorem rescaleIdx_getD_zero (ridx : List ℕ) (os : ℕ) (h0 : ridx.getD 0 0 = 0)
    (hne : 0 < ridx.length) : (rescaleIdx ridx os).getD 0 0 = 0 := by
  rw [rescaleIdx_getD ridx os hne, h0]
  simp

theorem rescaleIdx_getD_last (ridx : List ℕ) (os : ℕ)
    (hpw : List.Pairwise (· < ·) ridx) (hm : ridx.foldr Nat.max 0 ≠ 0) :
    (rescaleIdx ridx os).getD ((rescaleIdx ridx os).length - 1) 0 = ((os - 1 : ℕ) : ℚ) := by
  have hne : ridx ≠ [] := by
    intro h; rw [h] at hm; simp [List.foldr] at hm
  have hlen : 0 < ridx.length := List.length_pos.mpr hne
  rw [rescaleIdx_length]
  rw [rescaleIdx_getD ridx os (by omega)]
  rw [← foldr_max_eq_last hpw]
  have hm' : ((ridx.foldr Nat.max 0 : ℕ) : ℚ) ≠ 0 := by exact_mod_cast hm
  rw [div_self hm', one_mul]

/-! ### Helper lemmas: grid, interp1d as lists, mapped curve values -/

theorem grid_length (os : ℕ) : (grid os).length = os := by simp [grid]

theorem grid_getD (os : ℕ) {k : ℕ} (hk : k < os) : (grid os).getD k 0 = (k : ℚ) := by
  rw [List.getD_eq_getElem _ _ (by simpa [grid] using hk)]
  simp only [grid, List.getElem_map]
  simp

theorem interp1d_length (eps : ℚ) (xs ys qs : List ℚ) :
    (interp1d eps xs ys qs).length = qs.length := by simp [interp1d]

theorem interp1d_getD (eps : ℚ) (xs ys qs : List ℚ) {k : ℕ} (hk : k < qs.length) :
    (interp1d eps xs ys qs).getD k 0 = interpAt eps xs ys (qs.getD k 0) := by
  rw [List.getD_eq_getElem _ _ (by simpa [interp1d] using hk)]
  simp only [interp1d, List.getElem_map]
  rw [List.getD_eq_getElem _ _ hk]

theorem mapGetD_length (f : List ℚ) (ridx : List ℕ) :
    (ridx.map fun i => f.getD i 0).length = ridx.length := by simp

theorem mapGetD_getD (f : List ℚ) (ridx : List ℕ) {k : ℕ} (hk : k < ridx.length) :
    (ridx.map fun i => f.getD i 0).getD k 0 = f.getD (ridx.getD k 0) 0 := by
  rw [List.getD_eq_getElem _ _ (by simpa using hk)]
  rw [List.getElem_map]
  rw [List.getD_eq_getElem _ _ hk]

theorem nondecrOn_mapGetD {f : List ℚ} {ridx : List ℕ} (hf : NondecrOn f)
    (hpw : List.Pairwise (· < ·) ridx) (hmem : ∀ i ∈ ridx, i < f.length) :
    NondecrOn (ridx.map fun i => f.getD i 0) := by
  have hget := List.pairwise_iff_getElem.mp hpw
  intro i j hij hj
  rw [mapGetD_length] at hj
  have hi : i < ridx.length := by omega
  rw [mapGetD_getD f ridx hi, mapGetD_getD f ridx hj]
  have hjlt : ridx.getD j 0 < f.length := hmem _ (getD_mem hj)
  have hmono : ridx.getD i 0 ≤ ridx.getD j 0 := by
    rcases Nat.lt_or_ge i j with hlt | hge
    · rw [List.getD_eq_getElem _ _ hi, List.getD_eq_getElem _ _ hj]
      exact le_of_lt (hget i j hi hj hlt)
    · have : i = j := by omega
      subst this
      exact le_refl _
  exact hf _ _ hmono hjlt

/-! ### Properties of a successfully resampled per-region curve -/

theorem regionCurve_props {eps limit : ℚ} {os : ℕ} {preds : List ℚ} {cflat : List ℕ}
    {lab : ℕ} {cf ct : List ℚ} (heps : 0 < eps)
    (h : regionCurve eps limit os preds cflat lab = .ok (cf, ct)) :
    0 ≤ limit ∧ cf.length = os ∧ ct.length = os ∧ NondecrOn cf ∧
      (∀ k, k < os → 0 ≤ cf.getD k 0) ∧
      (∀ k, k < os → 0 ≤ ct.getD k 0 ∧ ct.getD k 0 ≤ 1) := by
  simp only [regionCurve] at h
  set mask := cflat.map fun c => decide (c = lab) with hmask
  set fprR := (roc preds mask).1 with hfprR
  set tprR := (roc preds mask).2 with htprR
  set ridx := retainedIdx fprR limit with hridx
  by_cases h0 : ridx.length = 0
  · rw [if_pos h0] at h
    exact absurd h (by simp)
  rw [if_neg h0] at h
  by_cases h1 : ridx.length = 1
  · rw [if_pos h1] at h
    exact absurd h (by simp)
  rw [if_neg h1] at h
  have hlen2 : 2 ≤ ridx.length := by omega
  simp only [Except.ok.injEq, Prod.mk.injEq] at h
  obtain ⟨hcf, hct⟩ := h
  subst hcf
  subst hct
  set rfpr := ridx.map fun i => fprR.getD i 0 with hrfpr
  set rtpr := ridx.map fun i => tprR.getD i 0 with hrtpr
  set xs := rescaleIdx ridx os with hxs
  set m := ridx.foldr Nat.max 0 with hmdef
  -- facts about the retained indices
  have hpw : List.Pairwise (· < ·) ridx := pairwise_lt_retainedIdx _ _
  have hne : ridx ≠ [] := by
    intro hnil
    rw [hnil] at h0
    simp at h0
  have hm : m ≠ 0 := by
    have hlt : ridx.getD 0 0 < ridx.getD (ridx.length - 1) 0 := by
      rw [List.getD_eq_getElem _ _ (show 0 < ridx.length by omega),
        List.getD_eq_getElem _ _ (show ridx.length - 1 < ridx.length by omega)]
      exact (List.pairwise_iff_getElem.mp hpw) 0 (ridx.length - 1)
        (by omega) (by omega) (by omega)
    rw [hmdef, foldr_max_eq_last hpw]
    omega
  have hmmem : m ∈ ridx := foldr_max_mem hpw hne
  have hmfacts := mem_retainedIdx.mp hmmem
  have hlim : 0 ≤ limit :=
    le_trans ((roc_fst_bounds preds mask m hmfacts.1).1) hmfacts.2
  have h0mem : 0 ∈ ridx := by
    refine mem_retainedIdx.mpr ⟨by omega, ?_⟩
    rw [roc_fst_getD_zero]
    exact hlim
  have hhd : ridx.getD 0 0 = 0 := sorted_head_zero hpw h0mem
  -- facts about the rescaled x-axis
  have hxlen : xs.length = ridx.length := rescaleIdx_length ridx os
  have hx2 : 2 ≤ xs.length := by omega
  have hxnd : NondecrOn xs := nondecrOn_rescaleIdx ridx os hpw
  have hx0 : xs.getD 0 0 = 0 := rescaleIdx_getD_zero ridx os hhd (by omega)
  have hxlast : xs.getD (xs.length - 1) 0 = ((os - 1 : ℕ) : ℚ) :=
    rescaleIdx_getD_last ridx os hpw hm
  -- facts about the retained curve values
  have hmemf : ∀ i ∈ ridx, i < fprR.length := fun i hi => (mem_retainedIdx.mp hi).1
  have hmemt : ∀ i ∈ ridx, i < tprR.length := by
    intro i hi
    rw [htprR, roc_length_eq]
    exact hmemf i hi
  have hrfprlen : rfpr.length = xs.length := by rw [hrfpr, mapGetD_length, hxlen]
  have hrtprlen : rtpr.length = xs.length := by rw [hrtpr, mapGetD_length, hxlen]
  have hrfprnd : NondecrOn rfpr := nondecrOn_mapGetD (roc_fst_nondecr preds mask) hpw hmemf
  have hrtprnd : NondecrOn rtpr := nondecrOn_mapGetD (roc_snd_nondecr preds mask) hpw hmemt
  have hrfprbd : ∀ k, k < rfpr.length → 0 ≤ rfpr.getD k 0 := by
    intro k hk
    rw [hrfpr, mapGetD_length] at hk
    rw [hrfpr, mapGetD_getD _ _ hk]
    exact (roc_fst_bounds preds mask _ (hmemf _ (getD_mem hk))).1
  have hrtprbd : ∀ k, k < rtpr.length → 0 ≤ rtpr.getD k 0 ∧ rtpr.getD k 0 ≤ 1 := by
    intro k hk
    rw [hrtpr, mapGetD_length] at hk
    rw [hrtpr, mapGetD_getD _ _ hk]
    exact roc_snd_bounds preds mask _ (hmemt _ (getD_mem hk))
  -- query-point bounds for every grid point
  have hq : ∀ q : ℕ, q < os →
      xs.getD 0 0 ≤ (q : ℚ) ∧ (q : ℚ) ≤ xs.getD (xs.length - 1) 0 := by
    intro q hq
    rw [hx0, hxlast]
    constructor
    · exact Nat.cast_nonneg q
    · exact_mod_cast Nat.le_sub_one_of_lt hq
  refine ⟨hlim, ?_, ?_, ?_, ?_, ?_⟩
  · rw [interp1d_length, grid_length]
  · rw [interp1d_length, grid_length]
  · -- the resampled fpr curve is nondecreasing
    intro i j hij hj
    rw [interp1d_length, grid_length] at hj
    have hi : i < os := by omega
    rw [@interp1d_getD eps xs rfpr (grid os) i (by rw [grid_length]; exact hi),
      @interp1d_getD eps xs rfpr (grid os) j (by rw [grid_length]; exact hj),
      grid_getD os hi, grid_getD os hj]
    exact interpAt_mono eps xs rfpr _ _ heps hrfprlen hx2 hxnd hrfprnd
      (by exact_mod_cast hij) (hq i hi).1 (hq j hj).2
  · -- the resampled fpr curve is nonnegative
    intro k hk
    rw [interp1d_getD _ _ _ _ (by rwa [grid_length]), grid_getD os hk]
    have hge := interpAt_ge eps xs rfpr _ heps hrfprlen hx2 hxnd hrfprnd
      (hq k hk).1 (hq k hk).2
    refine le_trans (hrfprbd _ ?_) hge
    have := interpIdx_add_one_lt xs (k : ℚ) hx2
    omega
  · -- the resampled tpr curve lies in the unit interval
    intro k hk
    rw [interp1d_getD _ _ _ _ (by rwa [grid_length]), grid_getD os hk]
    have hi1 := interpIdx_add_one_lt xs (k : ℚ) hx2
    constructor
    · have hge := interpAt_ge eps xs rtpr _ heps hrtprlen hx2 hxnd hrtprnd
        (hq k hk).1 (hq k hk).2
      refine le_trans (hrtprbd _ (by omega)).1 hge
    · have hle := interpAt_le eps xs rtpr _ heps hrtprlen hx2 hxnd hrtprnd
        (hq k hk).1 (hq k hk).2
      exact le_trans hle (hrtprbd _ (by omega)).2


/-- Characterization of the exceptions a single region iteration can raise:
the empty-reduction RuntimeError occurs exactly when no ROC point at all is
retained, which (since every ROC curve starts at `fpr = 0`) happens exactly
when the limit is negative; otherwise the only possible exception is the
IndexError of a single-knot `interp1d`.  In particular the raised exception
does not depend on the label. -/
theorem regionCurve_error_char {eps limit : ℚ} {os : ℕ} {preds : List ℚ}
    {cflat : List ℕ} {lab : ℕ} {e : AuproErr}
    (h : regionCurve eps limit os preds cflat lab = .error e) :
    (e = .reduce ∧ limit < 0) ∨ (e = .index ∧ 0 ≤ limit) := by
  simp only [regionCurve] at h
  set mask := cflat.map fun c => decide (c = lab) with hmask
  set ridx := retainedIdx (roc preds mask).1 limit with hridx
  by_cases h0 : ridx.length = 0
  · rw [if_pos h0] at h
    left
    refine ⟨(Except.error.inj h).symm, ?_⟩
    by_contra hc
    push_neg at hc
    have h0mem : 0 ∈ ridx := by
      refine mem_retainedIdx.mpr
        ⟨List.length_pos.mpr (roc_fst_ne_nil preds mask), ?_⟩
      rw [roc_fst_getD_zero]
      exact hc
    have := List.length_pos.mpr (List.ne_nil_of_mem h0mem)
    omega
  rw [if_neg h0] at h
  by_cases h1 : ridx.length = 1
  · rw [if_pos h1] at h
    right
    refine ⟨(Except.error.inj h).symm, ?_⟩
    have hne : ridx ≠ [] := by
      intro hn
      rw [hn] at h1
      simp at h1
    rcases List.exists_mem_of_ne_nil ridx hne with ⟨j, hj⟩
    have hf := mem_retainedIdx.mp hj
    exact le_trans (roc_fst_bounds preds mask j hf.1).1 hf.2
  rw [if_neg h1] at h
  simp at h

/-! ### Helper lemmas: summation and averaging of curves -/

theorem sumCurvesE_nil (os : ℕ) :
    sumCurvesE os [] = .ok (List.replicate os 0, List.replicate os 0) := rfl

theorem sumCurvesE_cons (os : ℕ) (c : Except AuproErr (List ℚ × List ℚ))
    (cs : List (Except AuproErr (List ℚ × List ℚ))) :
    sumCurvesE os (c :: cs) = addE c (sumCurvesE os cs) := rfl

theorem addE_error_left (e : AuproErr) (acc : Except AuproErr (List ℚ × List ℚ)) :
    addE (.error e) acc = .error e := by
  cases acc <;> rfl

theorem addE_ok_error (p : List ℚ × List ℚ) (e : AuproErr) :
    addE (.ok p) (.error e) = .error e := rfl

theorem addE_ok_ok (p q : List ℚ × List ℚ) :
    addE (.ok p) (.ok q) = .ok (addCurve p q) := rfl

theorem replicate_getD {n k : ℕ} (hk : k < n) :
    (List.replicate n (0 : ℚ)).getD k 0 = 0 := by
  rw [List.getD_eq_getElem _ _ (by simpa using hk)]
  simp

theorem zipAdd_length (a b : List ℚ) :
    (List.zipWith (· + ·) a b).length = min a.length b.length := by
  rw [List.length_zipWith]

theorem zipAdd_getD {a b : List ℚ} {k : ℕ} (ha : k < a.length) (hb : k < b.length) :
    (List.zipWith (· + ·) a b).getD k 0 = a.getD k 0 + b.getD k 0 := by
  rw [List.getD_eq_getElem _ _ (by rw [zipAdd_length]; omega)]
  rw [List.getElem_zipWith, List.getD_eq_getElem _ _ ha, List.getD_eq_getElem _ _ hb]

theorem sumCurvesE_props (os : ℕ) (cs : List (Except AuproErr (List ℚ × List ℚ))) :
    ∀ F T : List ℚ, (∀ p, Except.ok p ∈ cs → CurveProps os p) →
      sumCurvesE os cs = .ok (F, T) →
      F.length = os ∧ T.length = os ∧ NondecrOn F ∧
        (∀ k, k < os → 0 ≤ F.getD k 0) ∧
        (∀ k, k < os → 0 ≤ T.getD k 0 ∧ T.getD k 0 ≤ (cs.length : ℚ)) := by
  induction cs with
  | nil =>
      intro F T _ h
      rw [sumCurvesE_nil] at h
      simp only [Except.ok.injEq, Prod.mk.injEq] at h
      obtain ⟨hF, hT⟩ := h
      subst hF
      subst hT
      refine ⟨by simp, by simp, ?_, ?_, ?_⟩
      · intro i j hij hj
        rw [List.length_replicate] at hj
        rw [replicate_getD (by omega), replicate_getD hj]
      · intro k hk
        rw [replicate_getD hk]
      · intro k hk
        rw [replicate_getD hk]
        simp
  | cons c cs ih =>
      intro F T hall h
      rw [sumCurvesE_cons] at h
      match c, hrest : sumCurvesE os cs with
      | .error e, .error e' => rw [hrest, addE_error_left] at h; simp at h
      | .error e, .ok v => rw [hrest, addE_error_left] at h; simp at h
      | .ok p, .error e => rw [hrest, addE_ok_error] at h; simp at h
      | .ok p, .ok (F', T') =>
          rw [hrest, addE_ok_ok] at h
          simp only [Except.ok.injEq, Prod.mk.injEq, addCurve] at h
          obtain ⟨hF, hT⟩ := h
          subst hF
          subst hT
          have hp : CurveProps os p := hall p (by simp)
          have hihres := ih F' T' (fun q hq => hall q (by simp [hq])) hrest
          obtain ⟨hp1, hp2, hpnd, hpf, hpt⟩ := hp
          obtain ⟨hF'1, hT'1, hF'nd, hF'f, hT't⟩ := hihres
          have hlf : (List.zipWith (· + ·) p.1 F').length = os := by
            rw [zipAdd_length, hp1, hF'1]; omega
          have hlt : (List.zipWith (· + ·) p.2 T').length = os := by
            rw [zipAdd_length, hp2, hT'1]; omega
          refine ⟨hlf, hlt, ?_, ?_, ?_⟩
          · intro i j hij hj
            rw [hlf] at hj
            rw [zipAdd_getD (by omega) (by omega), zipAdd_getD (by omega) (by omega)]
            have h1 := hpnd i j hij (by omega)
            have h2 := hF'nd i j hij (by omega)
            linarith
          · intro k hk
            rw [zipAdd_getD (by omega) (by omega)]
            have h1 := hpf k hk
            have h2 := hF'f k hk
            linarith
          · intro k hk
            rw [zipAdd_getD (by omega) (by omega)]
            have h1 := hpt k hk
            have h2 := hT't k hk
            constructor
            · linarith
            · simp only [List.length_cons]
              push_cast
              linarith

theorem sumCurvesE_ok_forall {os : ℕ} {cs : List (Except AuproErr (List ℚ × List ℚ))}
    {v : List ℚ × List ℚ} (h : sumCurvesE os cs = .ok v) :
    ∀ c ∈ cs, ∃ p, c = .ok p := by
  induction cs generalizing v with
  | nil => simp
  | cons c cs ih =>
      rw [sumCurvesE_cons] at h
      match c, hrest : sumCurvesE os cs with
      | .error e, .error e' => rw [hrest, addE_error_left] at h; simp at h
      | .error e, .ok w => rw [hrest, addE_error_left] at h; simp at h
      | .ok p, .error e => rw [hrest, addE_ok_error] at h; simp at h
      | .ok p, .ok w =>
          intro d hd
          rcases List.mem_cons.mp hd with rfl | hm
          · exact ⟨p, rfl⟩
          · exact ih hrest d hm

theorem sumCurvesE_error_mem {os : ℕ} {cs : List (Except AuproErr (List ℚ × List ℚ))}
    {e : AuproErr} (h : sumCurvesE os cs = .error e) : Except.error e ∈ cs := by
  induction cs with
  | nil => rw [sumCurvesE_nil] at h; simp at h
  | cons c cs ih =>
      rw [sumCurvesE_cons] at h
      match c, hrest : sumCurvesE os cs with
      | .error e', .error e'' =>
          rw [addE_error_left] at h
          rw [Except.error.inj h]
          exact List.mem_cons_self _ _
      | .error e', .ok w =>
          rw [addE_error_left] at h
          rw [Except.error.inj h]
          exact List.mem_cons_self _ _
      | .ok p, .error e' =>
          rw [hrest, addE_ok_error] at h
          exact List.mem_cons_of_mem _ (ih (hrest.trans (by rw [Except.error.inj h])))
      | .ok p, .ok w => rw [hrest, addE_ok_ok] at h; simp at h

theorem map_div_length (l : List ℚ) (n : ℚ) : (l.map (· / n)).length = l.length := by
  simp

theorem map_div_getD {l : List ℚ} {n : ℚ} {k : ℕ} (hk : k < l.length) :
    (l.map (· / n)).getD k 0 = l.getD k 0 / n := by
  rw [List.getD_eq_getElem _ _ (by simpa using hk)]
  rw [List.getElem_map, List.getD_eq_getElem _ _ hk]


/-! ### Helper lemmas: trapezoid rule and auc -/

theorem trapz_bounds (x : List ℚ) : ∀ y : List ℚ, x.length = y.length →
    NondecrOn x → (∀ k, k < x.length → 0 ≤ x.getD k 0) →
    (∀ k, k < y.length → 0 ≤ y.getD k 0 ∧ y.getD k 0 ≤ 1) →
    0 ≤ trapz x y ∧ trapz x y ≤ x.getD (x.length - 1) 0 - x.getD 0 0 := by
  induction x with
  | nil =>
      intro y _ _ _ _
      match y with
      | [] => simp [trapz]
      | y0 :: yt => simp [trapz]
  | cons x0 xt ih =>
      intro y hlen hnd hx hy
      match xt, y with
      | [], [] => simp at hlen
      | [], [y0] => simp [trapz]
      | [], y0 :: y1 :: ys => simp at hlen
      | x1 :: xs, [] => simp at hlen
      | x1 :: xs, [y0] => simp at hlen
      | x1 :: xs, y0 :: y1 :: ys =>
          have hlen' : (x1 :: xs).length = (y1 :: ys).length := by
            simp at hlen ⊢; omega
          have hx' : ∀ k, k < (x1 :: xs).length → 0 ≤ (x1 :: xs).getD k 0 := by
            intro k hk
            have := hx (k + 1) (by simp at hk ⊢; omega)
            simpa using this
          have hy' : ∀ k, k < (y1 :: ys).length →
              0 ≤ (y1 :: ys).getD k 0 ∧ (y1 :: ys).getD k 0 ≤ 1 := by
            intro k hk
            have := hy (k + 1) (by simp at hk ⊢; omega)
            simpa using this
          obtain ⟨iha, ihb⟩ := ih (y1 :: ys) hlen' (nondecrOn_tail hnd) hx' hy'
          have h01 : x0 ≤ x1 := by
            have := nondecrOn_adj hnd 0 (by simp)
            simpa using this
          have hy0 := hy 0 (by simp)
          have hy1 := hy 1 (by simp)
          simp only [List.getD_cons_zero, List.getD_cons_succ] at hy0 hy1
          have htz : trapz (x0 :: x1 :: xs) (y0 :: y1 :: ys) =
              (x1 - x0) * (y0 + y1) / 2 + trapz (x1 :: xs) (y1 :: ys) := rfl
          have hterm0 : 0 ≤ (x1 - x0) * (y0 + y1) / 2 :=
            div_nonneg (mul_nonneg (by linarith) (by linarith)) (by norm_num)
          have hterm1 : (x1 - x0) * (y0 + y1) / 2 ≤ x1 - x0 := by
            nlinarith [mul_nonneg (by linarith : (0:ℚ) ≤ x1 - x0)
              (by linarith : (0:ℚ) ≤ 2 - (y0 + y1))]
          have hlast : (x0 :: x1 :: xs).getD ((x0 :: x1 :: xs).length - 1) 0 =
              (x1 :: xs).getD ((x1 :: xs).length - 1) 0 := by
            simp only [List.length_cons]
            rw [Nat.add_sub_cancel, Nat.add_sub_cancel, List.getD_cons_succ]
          constructor
          · rw [htz]; linarith
          · rw [htz, hlast]
            simp only [List.getD_cons_zero] at ihb ⊢
            linarith

theorem aucE_of_nondecr {x : List ℚ} (y : List ℚ) (hx : NondecrOn x) :
    aucE x y = .ok (trapz x y) := by
  have hdx : (List.zipWith (fun a b => b - a) x (x.drop 1)).any
      (fun d => decide (d < 0)) = false := by
    rw [List.any_eq_false]
    intro d hd
    rcases List.mem_iff_getElem.mp hd with ⟨k, hk, hdk⟩
    rw [List.getElem_zipWith] at hdk
    rw [List.getElem_drop] at hdk
    have hklen : 1 + k < x.length := by
      rw [List.length_zipWith, List.length_drop] at hk
      omega
    have hmono := hx k (1 + k) (by omega) hklen
    rw [List.getD_eq_getElem _ _ (by omega), List.getD_eq_getElem _ _ hklen] at hmono
    simp only [decide_eq_true_eq]
    subst hdk
    linarith
  unfold aucE
  rw [hdx]
  simp

/-! ### Assembled properties of the aggregated (averaged) curves -/

theorem aggCurves_props {eps limit : ℚ} {os : ℕ} {preds : List ℚ} {cflat : List ℕ}
    {labels : List ℕ} {f t : List ℚ} (heps : 0 < eps)
    (h : aggCurves eps limit os preds cflat labels = .ok (some (f, t))) :
    f.length = os ∧ t.length = os ∧ NondecrOn f ∧
      (∀ k, k < os → 0 ≤ f.getD k 0) ∧
      (∀ k, k < os → 0 ≤ t.getD k 0 ∧ t.getD k 0 ≤ 1) ∧
      labels ≠ [] ∧ 0 ≤ limit := by
  unfold aggCurves at h
  rcases hsum : sumCurvesE os (labels.map (regionCurve eps limit os preds cflat)) with
    e | ⟨F, T⟩
  · rw [hsum] at h; simp at h
  rw [hsum] at h
  have h' : avgCurves labels.length (F, T) = some (f, t) := Except.ok.inj h
  unfold avgCurves at h'
  by_cases hn : labels.length = 0
  · rw [if_pos hn] at h'; simp at h'
  rw [if_neg hn] at h'
  simp only [Option.some.injEq, Prod.mk.injEq] at h'
  obtain ⟨hf, ht⟩ := h'
  have hall : ∀ p, Except.ok p ∈ labels.map (regionCurve eps limit os preds cflat) →
      CurveProps os p := by
    intro p hp
    rcases List.mem_map.mp hp with ⟨lab, _, hlab⟩
    obtain ⟨_, h1, h2, h3, h4, h5⟩ := regionCurve_props heps hlab
    exact ⟨h1, h2, h3, h4, h5⟩
  obtain ⟨hF1, hT1, hFnd, hFf, hTt⟩ :=
    sumCurvesE_props os _ F T hall hsum
  have hlabne : labels ≠ [] := fun hnil => hn (by rw [hnil]; rfl)
  have hlim : 0 ≤ limit := by
    rcases List.exists_mem_of_ne_nil labels hlabne with ⟨lab, hlab⟩
    have hmem : regionCurve eps limit os preds cflat lab ∈
        labels.map (regionCurve eps limit os preds cflat) :=
      List.mem_map.mpr ⟨lab, hlab, rfl⟩
    rcases sumCurvesE_ok_forall hsum _ hmem with ⟨p, hp⟩
    exact (regionCurve_props heps hp).1
  have hnQ : (0 : ℚ) < (labels.length : ℚ) := by
    exact_mod_cast Nat.pos_of_ne_zero hn
  subst hf
  subst ht
  rw [List.length_map] at hTt
  refine ⟨?_, ?_, ?_, ?_, ?_, hlabne, hlim⟩
  · rw [map_div_length, hF1]
  · rw [map_div_length, hT1]
  · intro i j hij hj
    rw [map_div_length] at hj
    rw [map_div_getD (by omega), map_div_getD (by omega)]
    exact (div_le_div_iff_of_pos_right hnQ).mpr (hFnd i j hij (by omega))
  · intro k hk
    rw [map_div_getD (by omega)]
    exact div_nonneg (hFf k hk) (le_of_lt hnQ)
  · intro k hk
    rw [map_div_getD (by omega)]
    constructor
    · exact div_nonneg (hTt k hk).1 (le_of_lt hnQ)
    · exact (div_le_one hnQ).mpr (hTt k hk).2


/-! ### State-level consequences -/

theorem eps32_pos : (0 : ℚ) < eps32 := by norm_num [eps32]

theorem gos_pos (s : AUPROState) (hlim : 0 ≤ s.fpr_limit) : 1 ≤ s.gos := by
  unfold AUPROState.gos
  have hne := roc_fst_ne_nil s.pflat (s.tflat.map fun v => decide (v = 1))
  have h0 : (0 : ℕ) ∈
      retainedIdx (roc s.pflat (s.tflat.map fun v => decide (v = 1))).1 s.fpr_limit := by
    refine mem_retainedIdx.mpr ⟨List.length_pos.mpr hne, ?_⟩
    rw [roc_fst_getD_zero]
    exact hlim
  have h1 := List.length_pos.mpr (List.ne_nil_of_mem h0)
  omega

theorem computeCurves_ok_inv {s : AUPROState} {c : Option (List ℚ × List ℚ)}
    (h : s.computeCurves = .ok c) :
    aggCurves eps32 s.fpr_limit s.gos s.pflat s.cflat s.labels = .ok c := by
  unfold AUPROState.computeCurves at h
  split_ifs at h
  exact h

theorem curves_some_props {s : AUPROState} {f t : List ℚ}
    (h : s.computeCurves = .ok (some (f, t))) :
    f.length = s.gos ∧ t.length = s.gos ∧ NondecrOn f ∧
      (∀ k, k < s.gos → 0 ≤ f.getD k 0) ∧
      (∀ k, k < s.gos → 0 ≤ t.getD k 0 ∧ t.getD k 0 ≤ 1) ∧ 1 ≤ s.gos := by
  have hagg : aggCurves eps32 s.fpr_limit s.gos s.pflat s.cflat s.labels =
      .ok (some (f, t)) := computeCurves_ok_inv h
  obtain ⟨h1, h2, h3, h4, h5, _, hlim⟩ := aggCurves_props eps32_pos hagg
  exact ⟨h1, h2, h3, h4, h5, gos_pos s hlim⟩

theorem scoreOfCurves_of_computeCurves {s : AUPROState} {f t : List ℚ}
    (h : s.computeCurves = .ok (some (f, t))) :
    scoreOfCurves (some (f, t)) =
      .ok (if f.getD (f.length - 1) 0 = 0 then none
           else some (trapz f t / f.getD (f.length - 1) 0)) := by
  obtain ⟨h1, _, h3, _, _, hgos⟩ := curves_some_props h
  have hne : f ≠ [] := by
    intro hf
    rw [hf] at h1
    simp at h1
    omega
  show (match aucE f t with
    | .error _ => (.error .auc : Except AuproErr (Option ℚ))
    | .ok area =>
      match f.getLast? with
      | none => .error .index
      | some l => .ok (if l = 0 then none else some (area / l))) = _
  rw [aucE_of_nondecr t h3, getLast?_eq_getD f hne]

/-- Any exception escaping the per-region loop is one raised by a region
iteration: the empty-reduction RuntimeError or the single-knot IndexError;
in particular none of them is ValueError-class. -/
theorem aggCurves_error_char {eps limit : ℚ} {os : ℕ} {preds : List ℚ}
    {cflat : List ℕ} {labels : List ℕ} {e : AuproErr}
    (h : aggCurves eps limit os preds cflat labels = .error e) :
    e = .reduce ∨ e = .index := by
  unfold aggCurves at h
  rcases hsum : sumCurvesE os (labels.map (regionCurve eps limit os preds cflat)) with
    e' | c
  · rw [hsum] at h
    have he : e' = e := Except.error.inj h
    subst he
    rcases List.mem_map.mp (sumCurvesE_error_mem hsum) with ⟨lab, _, hlab⟩
    rcases regionCurve_error_char hlab with ⟨h1, _⟩ | ⟨h1, _⟩
    · exact Or.inl h1
    · exact Or.inr h1
  · rw [hsum] at h
    simp at h

/-- When `_compute` returns curves, the tail of `compute` raises nothing:
the averaged fpr curve is monotone (so `auc` accepts it) and non-empty (so
`fpr[-1]` is in bounds). -/
theorem scoreOfCurves_no_error {s : AUPROState} {c : Option (List ℚ × List ℚ)}
    (h : s.computeCurves = .ok c) (e : AuproErr) : scoreOfCurves c ≠ .error e := by
  rcases c with _ | ⟨f, t⟩
  · intro hc
    simp [scoreOfCurves] at hc
  · rw [scoreOfCurves_of_computeCurves h]
    intro hc
    simp at hc


/-! ### Helper lemmas: min/max of a tensor -/

theorem foldl_min_le_init (t : List ℚ) : ∀ acc : ℚ, t.foldl min acc ≤ acc := by
  induction t with
  | nil => intro acc; simp
  | cons a t ih =>
      intro acc
      simp only [List.foldl_cons]
      exact le_trans (ih _) (min_le_left _ _)

theorem foldl_min_le_mem {t : List ℚ} {v : ℚ} (h : v ∈ t) :
    ∀ acc : ℚ, t.foldl min acc ≤ v := by
  induction t with
  | nil => simp at h
  | cons a t ih =>
      intro acc
      simp only [List.foldl_cons]
      rcases List.mem_cons.mp h with rfl | hm
      · exact le_trans (foldl_min_le_init _ _) (min_le_right _ _)
      · exact ih hm _

theorem foldl_min_mem (t : List ℚ) : ∀ acc : ℚ, t.foldl min acc = acc ∨ t.foldl min acc ∈ t := by
  induction t with
  | nil => intro acc; left; rfl
  | cons a t ih =>
      intro acc
      simp only [List.foldl_cons]
      rcases ih (min acc a) with h | h
      · rcases le_total acc a with hc | hc
        · left; rw [h, min_eq_left hc]
        · right; rw [h, min_eq_right hc]; simp
      · right; simp [h]

theorem listMin_le_mem {l : List ℚ} {v : ℚ} (h : v ∈ l) : listMin l ≤ v := by
  match l with
  | [] => simp at h
  | a :: t =>
      rcases List.mem_cons.mp h with rfl | hm
      · exact foldl_min_le_init t v
      · exact foldl_min_le_mem hm a

theorem listMin_mem {l : List ℚ} (h : l ≠ []) : listMin l ∈ l := by
  match l with
  | [] => simp at h
  | a :: t =>
      rcases foldl_min_mem t a with hm | hm
      · rw [listMin, hm]; simp
      · rw [listMin]; simp [hm]

theorem foldl_max_init_le (t : List ℚ) : ∀ acc : ℚ, acc ≤ t.foldl max acc := by
  induction t with
  | nil => intro acc; simp
  | cons a t ih =>
      intro acc
      simp only [List.foldl_cons]
      exact le_trans (le_max_left _ _) (ih _)

theorem foldl_max_mem_le {t : List ℚ} {v : ℚ} (h : v ∈ t) :
    ∀ acc : ℚ, v ≤ t.foldl max acc := by
  induction t with
  | nil => simp at h
  | cons a t ih =>
      intro acc
      simp only [List.foldl_cons]
      rcases List.mem_cons.mp h with rfl | hm
      · exact le_trans (le_max_right _ _) (foldl_max_init_le _ _)
      · exact ih hm _

theorem foldl_max_mem (t : List ℚ) : ∀ acc : ℚ, t.foldl max acc = acc ∨ t.foldl max acc ∈ t := by
  induction t with
  | nil => intro acc; left; rfl
  | cons a t ih =>
      intro acc
      simp only [List.foldl_cons]
      rcases ih (max acc a) with h | h
      · rcases le_total acc a with hc | hc
        · right; rw [h, max_eq_right hc]; simp
        · left; rw [h, max_eq_left hc]
      · right; simp [h]

theorem mem_le_listMax {l : List ℚ} {v : ℚ} (h : v ∈ l) : v ≤ listMax l := by
  match l with
  | [] => simp at h
  | a :: t =>
      rcases List.mem_cons.mp h with rfl | hm
      · exact foldl_max_init_le t v
      · exact foldl_max_mem_le hm a

theorem listMax_mem {l : List ℚ} (h : l ≠ []) : listMax l ∈ l := by
  match l with
  | [] => simp at h
  | a :: t =>
      rcases foldl_max_mem t a with hm | hm
      · rw [listMax, hm]; simp
      · rw [listMax]; simp [hm]

/-! ### Helper lemmas: knot exactness, permutation invariance, safe interp -/

theorem searchsorted_at_knot {xs : List ℚ} (hpw : List.Pairwise (· < ·) xs) :
    ∀ i, i < xs.length → searchsorted xs (xs.getD i 0) = i := by
  induction xs with
  | nil => intro i hi; simp at hi
  | cons a t ih =>
      intro i hi
      match i with
      | 0 => simp [searchsorted]
      | i + 1 =>
          have hit : i < t.length := by simpa using hi
          have hmem : t.getD i 0 ∈ t := getD_mem hit
          have hlt : a < t.getD i 0 := (List.pairwise_cons.mp hpw).1 _ hmem
          rw [List.getD_cons_succ]
          simp only [searchsorted, if_neg (not_le.mpr hlt)]
          rw [ih (List.pairwise_cons.mp hpw).2 i hit]

theorem zipAdd_left_comm (a : List ℚ) :
    ∀ b c : List ℚ, List.zipWith (· + ·) a (List.zipWith (· + ·) b c) =
      List.zipWith (· + ·) b (List.zipWith (· + ·) a c) := by
  induction a with
  | nil => intro b c; simp
  | cons x xs ih =>
      intro b c
      match b, c with
      | [], _ => simp
      | _ :: _, [] => simp
      | y :: ys, z :: zs =>
          simp only [List.zipWith_cons_cons]
          rw [ih ys zs]
          congr 1
          ring

theorem addCurve_left_comm (p q r : List ℚ × List ℚ) :
    addCurve p (addCurve q r) = addCurve q (addCurve p r) := by
  unfold addCurve
  rw [zipAdd_left_comm, zipAdd_left_comm p.2 q.2 r.2]

theorem sumCurvesE_perm {os : ℕ} :
    ∀ {cs1 cs2 : List (Except AuproErr (List ℚ × List ℚ))}, cs1.Perm cs2 →
      (∀ e e', Except.error e ∈ cs1 → Except.error e' ∈ cs1 → e = e') →
      sumCurvesE os cs1 = sumCurvesE os cs2 := by
  intro cs1 cs2 hp
  induction hp with
  | nil => intro _; rfl
  | cons c _ ih =>
      intro hu
      rw [sumCurvesE_cons, sumCurvesE_cons, ih fun e e' he he' =>
        hu e e' (List.mem_cons_of_mem _ he) (List.mem_cons_of_mem _ he')]
  | swap c1 c2 l =>
      intro hu
      rw [sumCurvesE_cons, sumCurvesE_cons, sumCurvesE_cons, sumCurvesE_cons]
      rcases c1 with e1 | p1 <;> rcases c2 with e2 | p2 <;>
        rcases hS : sumCurvesE os l with eS | r <;>
        simp only [addE_error_left, addE_ok_error, addE_ok_ok] <;>
        first
        | rfl
        | exact congrArg Except.error (hu _ _ (by simp) (by simp))
        | exact congrArg Except.ok (addCurve_left_comm _ _ _)
  | trans p1 _ ih1 ih2 =>
      intro hu
      rw [ih1 hu, ih2 fun e e' he he' =>
        hu e e' (p1.mem_iff.mpr he) (p1.mem_iff.mpr he')]

theorem traverseO_eq_some_map {α β : Type} (f : α → Option β) (g : α → β)
    (h : ∀ a, f a = some (g a)) (l : List α) : traverseO f l = some (l.map g) := by
  induction l with
  | nil => rfl
  | cons a t ih => simp [traverseO, h, ih]

theorem getElemQ_eq_getD {l : List ℚ} {i : ℕ} (h : i < l.length) :
    l[i]? = some (l.getD i 0) := by
  rw [List.getElem?_eq_getElem h, List.getD_eq_getElem _ _ h]


/-! ### Claim theorems -/

/-- C1 (counterexample): an accumulated state satisfying every hypothesis of
the claim (one update performed, targets valued in {0,1}, one foreground
region, two global ROC points under the fpr limit) on which `compute()` does
not return the normalized area in [0,1]: the averaged fpr curve ends at 0, the
normalization divides by zero, and the result is NaN (modelled `Except.ok
none`), so no scalar in [0,1] is returned. -/
theorem aupro_compute_unit_cex :
    AUPROState.update ⟨[], [], 3/10⟩ [[[0,1],[0,0]]] [[[0,1],[0,0]]] =
        Except.ok ⟨[[[[0,1],[0,0]]]], [[[[0,1],[0,0]]]], 3/10⟩ ∧
      (∀ v ∈ AUPROState.tflat ⟨[[[[0,1],[0,0]]]], [[[[0,1],[0,0]]]], 3/10⟩,
        v = 0 ∨ v = 1) ∧
      AUPROState.labels ⟨[[[[0,1],[0,0]]]], [[[[0,1],[0,0]]]], 3/10⟩ ≠ [] ∧
      2 ≤ AUPROState.gos ⟨[[[[0,1],[0,0]]]], [[[[0,1],[0,0]]]], 3/10⟩ ∧
      AUPROState.compute ⟨[[[[0,1],[0,0]]]], [[[[0,1],[0,0]]]], 3/10⟩ =
        Except.ok none := by
  decide

/-- C1 (amended): whenever `compute()` returns a numeric (non-NaN) score `a`,
that score equals the trapezoidal area under the averaged curve `(fpr_avg,
tpr_avg)` divided by the final value `fpr_avg[-1]`, and it lies in [0,1].  (On
inputs satisfying only the claim's original hypotheses the call need not
return such a score: when the averaged fpr curve ends at 0 the normalization
computes float `0/0` and NaN is returned — see the counterexample; a region
retaining a single ROC point under the limit instead makes the call raise an
IndexError inside `interp1d`.) -/
theorem aupro_compute_score_unit (s : AUPROState) (a : ℚ)
    (h : s.compute = .ok (some a)) :
    (0 ≤ a ∧ a ≤ 1) ∧
      ∃ f t : List ℚ, s.computeCurves = .ok (some (f, t)) ∧
        a = trapz f t / f.getD (f.length - 1) 0 := by
  unfold AUPROState.compute at h
  rcases hcc : s.computeCurves with e | c
  · rw [hcc] at h
    simp at h
  rw [hcc] at h
  change scoreOfCurves c = Except.ok (some a) at h
  rcases c with _ | ⟨f, t⟩
  · simp only [scoreOfCurves] at h
    simp at h
  · have hsc := scoreOfCurves_of_computeCurves hcc
    rw [hsc] at h
    have hinj := Except.ok.inj h
    by_cases hl : f.getD (f.length - 1) 0 = 0
    · rw [if_pos hl] at hinj
      exact absurd hinj (by simp)
    rw [if_neg hl] at hinj
    have ha : a = trapz f t / f.getD (f.length - 1) 0 := (Option.some.inj hinj).symm
    obtain ⟨h1, h2, h3, h4, h5, hgos⟩ := curves_some_props hcc
    have hlen : f.length = t.length := by rw [h1, h2]
    have hxbd : ∀ k, k < f.length → 0 ≤ f.getD k 0 := by
      intro k hk
      rw [h1] at hk
      exact h4 k hk
    have hybd : ∀ k, k < t.length → 0 ≤ t.getD k 0 ∧ t.getD k 0 ≤ 1 := by
      intro k hk
      rw [h2] at hk
      exact h5 k hk
    obtain ⟨hta, htb⟩ := trapz_bounds f t hlen h3 hxbd hybd
    have hlen1 : 1 ≤ f.length := by omega
    have hlpos : 0 < f.getD (f.length - 1) 0 :=
      lt_of_le_of_ne (hxbd _ (by omega)) (Ne.symm hl)
    have hfirst : 0 ≤ f.getD 0 0 := hxbd 0 (by omega)
    subst ha
    exact ⟨⟨div_nonneg hta (le_of_lt hlpos), (div_le_one hlpos).mpr (by linarith)⟩,
      f, t, rfl, rfl⟩

/-- Witness for the amended C1 theorem at a concrete accumulated state, whose
score is 16777217/16777218. -/
theorem aupro_compute_score_unit_witness :
    AUPROState.compute ⟨[[[[4,5,3,2,1]]]], [[[[0,1,0,0,0]]]], 3/10⟩ =
        Except.ok (some (16777217/16777218)) ∧
      0 ≤ (16777217/16777218 : ℚ) ∧ (16777217/16777218 : ℚ) ≤ 1 :=
  ⟨by decide,
   (aupro_compute_score_unit ⟨[[[[4,5,3,2,1]]]], [[[[0,1,0,0,0]]]], 3/10⟩ _
      (by decide)).1.1,
   (aupro_compute_score_unit ⟨[[[[4,5,3,2,1]]]], [[[[0,1,0,0,0]]]], 3/10⟩ _
      (by decide)).1.2⟩

/-- C2 (counterexample): an `update` whose prediction batch (shape 1×1×1) and
target batch (shape 1×2×2) disagree in shape does not fail: it succeeds and
appends both batches to the buffers, so no shape-mismatch error is raised at
update time. -/
theorem aupro_update_shape_mismatch_cex :
    batchShape [[[1]]] ≠ batchShape [[[1,0],[0,0]]] ∧
      AUPROState.update ⟨[], [], 3/10⟩ [[[1]]] [[[1,0],[0,0]]] =
        Except.ok ⟨[[[[1]]]], [[[[1,0],[0,0]]]], 3/10⟩ := by decide

/-- C2 (amended): `update(preds, target)` performs no validation whatsoever:
for every pair of batches — whether or not their shapes match — the call
succeeds, appending the prediction batch to the `preds` buffer and the target
batch to the `target` buffer, leaving `fpr_limit` unchanged.  Shape mismatches
surface only later, inside `compute()`. -/
theorem aupro_update_appends_unconditionally (s : AUPROState)
    (preds target : List (List (List ℚ))) :
    s.update preds target =
      Except.ok ⟨s.preds ++ [preds], s.target ++ [target], s.fpr_limit⟩ := rfl

/-- C5 (code evaluated at the failing input): with an all-zero accumulated
target (no foreground), `compute()` does not raise: the label list is empty,
the averaging divides the zero-initialised curves by zero regions, and the NaN
score (modelled `none`) is returned inside `Except.ok` — a silently wrong
value rather than the error the spec requires. -/
theorem aupro_allzero_target_no_raise :
    AUPROState.compute ⟨[[[[1,0],[0,0]]]], [[[[0,0],[0,0]]]], 3/10⟩ =
        Except.ok none ∧
      AUPROState.labels ⟨[[[[1,0],[0,0]]]], [[[[0,0],[0,0]]]], 3/10⟩ = [] := by
  decide

/-- C10: `compute()`, `_compute()` and `generate_figure()` leave the metric
state (both buffers and `fpr_limit`) unchanged, and calling `compute()` again
on the post-call state returns the same result. -/
theorem aupro_methods_pure (s : AUPROState) :
    s.computeCurvesM.2 = s ∧ s.computeM.2 = s ∧ s.generateFigureM.2 = s ∧
      s.computeM.2.computeM.1 = s.computeM.1 ∧
      s.computeM.2.fpr_limit = s.fpr_limit :=
  ⟨rfl, rfl, rfl, rfl, rfl⟩


theorem computeCurves_range_error (s : AUPROState) (hne1 : s.target ≠ [])
    (hne2 : s.preds ≠ []) (hne3 : s.tflat ≠ [])
    (hcond : listMin s.tflat < 0 ∨ 1 < listMax s.tflat) :
    s.computeCurves = .error (.range (listMin s.tflat) (listMax s.tflat)) := by
  unfold AUPROState.computeCurves
  rw [if_neg (by simp [hne1]), if_neg (by simp [hne2]), if_neg (by simp [hne3]),
    if_pos hcond]

theorem computeCurves_ok_of_inrange (s : AUPROState) (hne1 : s.target ≠ [])
    (hne2 : s.preds ≠ []) (hne3 : s.tflat ≠ [])
    (hcond : ¬(listMin s.tflat < 0 ∨ 1 < listMax s.tflat)) :
    s.computeCurves =
      aggCurves eps32 s.fpr_limit s.gos s.pflat s.cflat s.labels := by
  unfold AUPROState.computeCurves
  rw [if_neg (by simp [hne1]), if_neg (by simp [hne2]), if_neg (by simp [hne3]),
    if_neg hcond]

theorem compute_ok_of_curves_ok {s : AUPROState} {c : Option (List ℚ × List ℚ)}
    (h : s.computeCurves = .ok c) : ∃ r, s.compute = .ok r := by
  unfold AUPROState.compute
  rw [h]
  rcases c with _ | ⟨f, t⟩
  · exact ⟨none, rfl⟩
  · rw [show (match Except.ok (some (f, t)) with
        | Except.error e => (Except.error e : Except AuproErr (Option ℚ))
        | Except.ok c => scoreOfCurves c) = scoreOfCurves (some (f, t)) from rfl]
    rw [scoreOfCurves_of_computeCurves h]
    exact ⟨_, rfl⟩

/-- C3: at compute time — given a non-degenerate accumulated state (non-empty
buffers, matching shapes) — `compute()` raises a ValueError-class error
exactly when the concatenated target holds a value below 0 or above 1; the
raised error is the range ValueError carrying the observed minimum and
maximum, and no result is produced alongside it.  Targets lying entirely
within [0,1] pass the validation: any exception the call can still raise on
them (the single-knot IndexError of `interp1d`, or the RuntimeError of an
empty-tensor reduction, both from degenerate per-region curves) is not
ValueError-class. -/
theorem aupro_compute_range_check (s : AUPROState)
    (hne1 : s.target ≠ []) (hne2 : s.preds ≠ []) (hne3 : s.tflat ≠ [])
    (_hshape : s.pflat.length = s.tflat.length) :
    ((∃ v ∈ s.tflat, v < 0 ∨ 1 < v) ↔
        s.compute = .error (.range (listMin s.tflat) (listMax s.tflat))) ∧
      ((∀ v ∈ s.tflat, 0 ≤ v ∧ v ≤ 1) →
        ∀ e, s.compute = .error e → e.isValueError = false) := by
  have hB : (∀ v ∈ s.tflat, 0 ≤ v ∧ v ≤ 1) →
      ∀ e, s.compute = .error e → e.isValueError = false := by
    intro hin e herr
    have hcond : ¬(listMin s.tflat < 0 ∨ 1 < listMax s.tflat) := by
      push_neg
      exact ⟨(hin _ (listMin_mem hne3)).1, (hin _ (listMax_mem hne3)).2⟩
    have hcc := computeCurves_ok_of_inrange s hne1 hne2 hne3 hcond
    unfold AUPROState.compute at herr
    rcases hagg : aggCurves eps32 s.fpr_limit s.gos s.pflat s.cflat s.labels with
      e' | c
    · rw [hcc, hagg] at herr
      have herr' : (Except.error e' : Except AuproErr (Option ℚ)) =
          Except.error e := herr
      have he : e' = e := Except.error.inj herr'
      subst he
      rcases aggCurves_error_char hagg with rfl | rfl <;> rfl
    · rw [hcc, hagg] at herr
      have herr' : scoreOfCurves c = Except.error e := herr
      have hok : s.computeCurves = .ok c := by rw [hcc, hagg]
      exact absurd herr' (scoreOfCurves_no_error hok e)
  refine ⟨⟨?_, ?_⟩, hB⟩
  · rintro ⟨v, hv, hvor⟩
    have hcond : listMin s.tflat < 0 ∨ 1 < listMax s.tflat := by
      rcases hvor with hlt | hgt
      · exact Or.inl (lt_of_le_of_lt (listMin_le_mem hv) hlt)
      · exact Or.inr (lt_of_lt_of_le hgt (mem_le_listMax hv))
    have herr := computeCurves_range_error s hne1 hne2 hne3 hcond
    unfold AUPROState.compute
    rw [herr]
  · intro herr
    by_contra hc
    push_neg at hc
    have hin : ∀ v ∈ s.tflat, 0 ≤ v ∧ v ≤ 1 := by
      intro v hv
      have := hc v hv
      constructor <;> linarith [this.1, this.2]
    have := hB hin _ herr
    simp [AuproErr.isValueError] at this

/-- Witness for C3 at concrete states: an out-of-range target (value 2)
raises the range error reporting min 0 and max 2; a constant in-range
prediction batch leaves each region a single retained ROC point, so the call
raises, but the raised IndexError is not ValueError-class — the theorem
applied at that state establishes the classification. -/
theorem aupro_compute_range_check_witness :
    AUPROState.compute ⟨[[[[1,0],[0,0]]]], [[[[2,0],[0,0]]]], 3/10⟩ =
        Except.error (.range 0 2) ∧
      AUPROState.compute ⟨[[[[1,1],[1,1]]]], [[[[1,0],[0,0]]]], 3/10⟩ =
        Except.error .index ∧
      AuproErr.isValueError .index = false := by
  refine ⟨?_, by decide, ?_⟩
  · have h := (aupro_compute_range_check ⟨[[[[1,0],[0,0]]]], [[[[2,0],[0,0]]]], 3/10⟩
      (by decide) (by decide) (by decide) (by decide)).1.mp
      ⟨2, by decide, by decide⟩
    have hmn : listMin (AUPROState.tflat ⟨[[[[1,0],[0,0]]]], [[[[2,0],[0,0]]]], 3/10⟩) = 0 := by
      decide
    have hmx : listMax (AUPROState.tflat ⟨[[[[1,0],[0,0]]]], [[[[2,0],[0,0]]]], 3/10⟩) = 2 := by
      decide
    rw [hmn, hmx] at h
    exact h
  · exact (aupro_compute_range_check ⟨[[[[1,1],[1,1]]]], [[[[1,0],[0,0]]]], 3/10⟩
      (by decide) (by decide) (by decide) (by decide)).2 (by decide) .index (by decide)

/-- C4: in the per-region resampling step, when the retained fpr-index
sequence of a region's ROC curve has at least two elements (and the grid has
at least two points), the rescaled indices map the minimum retained index
(always index 0, since an ROC curve starts at fpr 0 ≤ fpr_limit) to 0 and the
maximum retained index to output_size - 1. -/
theorem aupro_rescale_min_max (preds : List ℚ) (mask : List Bool) (limit : ℚ)
    (os : ℕ) (hlim : 0 ≤ limit)
    (hlen2 : 2 ≤ (retainedIdx (roc preds mask).1 limit).length) (hos : 2 ≤ os) :
    (rescaleIdx (retainedIdx (roc preds mask).1 limit) os).getD 0 0 = 0 ∧
      (rescaleIdx (retainedIdx (roc preds mask).1 limit) os).getD
        ((rescaleIdx (retainedIdx (roc preds mask).1 limit) os).length - 1) 0 =
        (os : ℚ) - 1 := by
  set ridx := retainedIdx (roc preds mask).1 limit with hridx
  have hpw : List.Pairwise (· < ·) ridx := pairwise_lt_retainedIdx _ _
  have h0mem : 0 ∈ ridx := by
    refine mem_retainedIdx.mpr ⟨List.length_pos.mpr (roc_fst_ne_nil preds mask), ?_⟩
    rw [roc_fst_getD_zero]
    exact hlim
  have hhd := sorted_head_zero hpw h0mem
  have hm : ridx.foldr Nat.max 0 ≠ 0 := by
    rw [foldr_max_eq_last hpw]
    have hlt := (List.pairwise_iff_getElem.mp hpw) 0 (ridx.length - 1)
      (by omega) (by omega) (by omega)
    rw [List.getD_eq_getElem _ _ (by omega)]
    rw [List.getD_eq_getElem _ _ (by omega : (0:ℕ) < ridx.length)] at hhd
    omega
  constructor
  · exact rescaleIdx_getD_zero ridx os hhd (by omega)
  · rw [rescaleIdx_getD_last ridx os hpw hm]
    have hos1 : 1 ≤ os := by omega
    rw [Nat.cast_sub hos1]
    simp

/-- Witness for C4 at a concrete region ROC curve: retained indices {0,1,2}
of the curve of preds [4,5,3,2,1] against the singleton mask rescale to
{0, 1, 2} on a 3-point grid, with minimum 0 and maximum os-1 = 2. -/
theorem aupro_rescale_min_max_witness :
    (rescaleIdx (retainedIdx
        (roc [4,5,3,2,1] [false,true,false,false,false]).1 (3/10)) 3).getD 0 0 = 0 ∧
      (rescaleIdx (retainedIdx
          (roc [4,5,3,2,1] [false,true,false,false,false]).1 (3/10)) 3).getD
        ((rescaleIdx (retainedIdx
          (roc [4,5,3,2,1] [false,true,false,false,false]).1 (3/10)) 3).length - 1) 0 =
        (3 : ℚ) - 1 :=
  aupro_rescale_min_max [4,5,3,2,1] [false,true,false,false,false] (3/10) 3
    (by norm_num) (by decide) (by norm_num)


/-- Sorted in the plain pairwise sense implies sorted in the indexed sense. -/
theorem pairwise_lt_getD {l : List ℚ} (h : List.Pairwise (· < ·) l) {i j : ℕ}
    (hij : i < j) (hj : j < l.length) : l.getD i 0 < l.getD j 0 := by
  have hh := (List.pairwise_iff_getElem.mp h) i j (by omega) hj hij
  rw [List.getD_eq_getElem _ _ (by omega), List.getD_eq_getElem _ _ hj]
  exact hh

theorem nondecrOn_of_pairwise {l : List ℚ} (h : List.Pairwise (· ≤ ·) l) :
    NondecrOn l := by
  have hget := List.pairwise_iff_getElem.mp h
  intro i j hij hj
  rcases Nat.lt_or_ge i j with hlt | hge
  · rw [List.getD_eq_getElem _ _ (by omega), List.getD_eq_getElem _ _ hj]
    exact hget i j (by omega) hj hlt
  · have : i = j := by omega
    subst this
    exact le_refl _

/-- C6 (counterexample): on the strictly increasing knots [0, 1] with values
[0, 1], `interp1d` with the float32 eps is not exact at the knots: at the
query 1 it returns 1/(1+2⁻²³) ≠ 1, because the ε guard shrinks the slope. -/
theorem interp1d_knot_exact_cex :
    List.Pairwise (· < ·) ([0, 1] : List ℚ) ∧
      interp1d eps32 [0, 1] [0, 1] [0, 1] ≠ [0, 1] := by decide

/-- C6 (amended): `interp1d` is exact at the first knot for every eps, and it
is exact at all knot points of a strictly increasing `old_x` exactly for the
ideal interpolant with the ε guard removed (eps = 0); with the positive eps
the source uses, the value at knot i > 0 is
`old_y[i-1] + (old_y[i]-old_y[i-1])·Δx/(Δx+eps)`, which differs from
`old_y[i]` whenever `old_y[i] ≠ old_y[i-1]` (see the counterexample). -/
theorem interp1d_knot_exact_amended (xs ys : List ℚ)
    (hpw : List.Pairwise (· < ·) xs) (hlen : ys.length = xs.length)
    (h2 : 2 ≤ xs.length) :
    (∀ eps : ℚ, interpAt eps xs ys (xs.getD 0 0) = ys.getD 0 0) ∧
      interp1d 0 xs ys xs = ys := by
  have hknot := searchsorted_at_knot hpw
  have hfirst : ∀ eps : ℚ, interpAt eps xs ys (xs.getD 0 0) = ys.getD 0 0 := by
    intro eps
    have hss : searchsorted xs (xs.getD 0 0) = 0 := hknot 0 (by omega)
    have hi : interpIdx xs (xs.getD 0 0) = 0 := by unfold interpIdx; omega
    rw [interpAt_def, hi, sub_self, mul_zero, add_zero]
  refine ⟨hfirst, ?_⟩
  apply List.ext_getElem
  · rw [interp1d_length]
    omega
  · intro i hi1 hi2
    have hix : i < xs.length := by rwa [interp1d_length] at hi1
    have hgetm : (interp1d 0 xs ys xs)[i] = interpAt 0 xs ys (xs.getD i 0) := by
      simp only [interp1d, List.getElem_map]
      rw [List.getD_eq_getElem _ _ hix]
    rw [hgetm]
    have hss : searchsorted xs (xs.getD i 0) = i := hknot i hix
    rcases Nat.eq_zero_or_pos i with rfl | hipos
    · rw [hfirst 0, List.getD_eq_getElem _ _ hi2]
    · have hi' : interpIdx xs (xs.getD i 0) = i - 1 := by
        unfold interpIdx
        omega
      rw [interpAt_def, hi']
      have hmm : i - 1 + 1 = i := by omega
      rw [hmm]
      have hdx : xs.getD (i - 1) 0 < xs.getD i 0 :=
        pairwise_lt_getD hpw (by omega) hix
      rw [zero_add, div_mul_cancel₀ _ (sub_ne_zero.mpr (ne_of_gt hdx))]
      rw [← List.getD_eq_getElem ys 0 (show i < ys.length by omega)]
      ring

/-- Witness for the amended C6 theorem on the concrete knots [0, 1] with
values [5, 9]. -/
theorem interp1d_knot_exact_amended_witness :
    interp1d 0 [0, 1] [5, 9] [0, 1] = [5, 9] ∧
      interpAt eps32 [0, 1] [5, 9] 0 = 5 := by
  constructor
  · exact (interp1d_knot_exact_amended [0, 1] [5, 9] (by decide) (by decide)
      (by decide)).2
  · have := (interp1d_knot_exact_amended [0, 1] [5, 9] (by decide) (by decide)
      (by decide)).1 eps32
    simpa using this

/-- C7: the outcome of the per-region loop — the averaged curves if it
completes, the raised exception if it does not (always the same exception for
every processing order, since which exception a region raises does not depend
on the label) — and hence the outcome of the score computation after it, are
invariant under any permutation of the order in which the region labels are
processed. -/
theorem aupro_region_order_invariant (eps limit : ℚ) (os : ℕ) (preds : List ℚ)
    (cflat : List ℕ) (l1 l2 : List ℕ) (hp : l1.Perm l2) :
    aggCurves eps limit os preds cflat l1 = aggCurves eps limit os preds cflat l2 ∧
      (match aggCurves eps limit os preds cflat l1 with
        | .error e => (.error e : Except AuproErr (Option ℚ))
        | .ok c => scoreOfCurves c) =
      (match aggCurves eps limit os preds cflat l2 with
        | .error e => .error e
        | .ok c => scoreOfCurves c) := by
  have huni : ∀ e e',
      Except.error e ∈ l1.map (regionCurve eps limit os preds cflat) →
      Except.error e' ∈ l1.map (regionCurve eps limit os preds cflat) → e = e' := by
    intro e e' he he'
    rcases List.mem_map.mp he with ⟨a, _, ha⟩
    rcases List.mem_map.mp he' with ⟨b, _, hb⟩
    rcases regionCurve_error_char ha with ⟨rfl, hl⟩ | ⟨rfl, hl⟩ <;>
      rcases regionCurve_error_char hb with ⟨rfl, hl'⟩ | ⟨rfl, hl'⟩ <;>
      first
      | rfl
      | (exfalso; linarith)
  have hcur : aggCurves eps limit os preds cflat l1 =
      aggCurves eps limit os preds cflat l2 := by
    unfold aggCurves
    rw [sumCurvesE_perm (hp.map (regionCurve eps limit os preds cflat)) huni,
      hp.length_eq]
  exact ⟨hcur, by rw [hcur]⟩

/-- Witness for C7: swapping the processing order of the two labels {1, 2}
leaves the aggregated curves unchanged. -/
theorem aupro_region_order_invariant_witness :
    aggCurves eps32 (3/10) 3 [4,5,3,2,1] [0,2,0,0,0] [1, 2] =
        aggCurves eps32 (3/10) 3 [4,5,3,2,1] [0,2,0,0,0] [2, 1] :=
  (aupro_region_order_invariant eps32 (3/10) 3 [4,5,3,2,1] [0,2,0,0,0] [1, 2] [2, 1]
    (by decide)).1

/-- C8: `read_image` on a path that does not exist or cannot be decoded (the
decoder returns a null result) fails with the error the null source raises in
the color-conversion step — the failure the spec names FileReadError; on a
successfully decoded file (always 3 channels, BGR order) it returns the
same-shaped 3-channel height×width×channel image with every pixel reordered
from (blue, green, red) to (red, green, blue). -/
theorem read_image_contract :
    read_image none = .error .emptySrc ∧
      (∀ img : BGRImage, read_image (some img) = .ok (cvtColorBGR2RGB img)) ∧
      (∀ img : BGRImage, (cvtColorBGR2RGB img).length = img.length) ∧
      (∀ img : BGRImage, ∀ r : ℕ,
        ((cvtColorBGR2RGB img).getD r []).length = (img.getD r []).length) ∧
      (∀ img : BGRImage, ∀ r c : ℕ,
        ((cvtColorBGR2RGB img).getD r []).getD c (0, 0, 0) =
          ((((img.getD r []).getD c (0, 0, 0)).2.2),
            (((img.getD r []).getD c (0, 0, 0)).2.1),
            (((img.getD r []).getD c (0, 0, 0)).1))) := by
  have hrow : ∀ (img : BGRImage) (r : ℕ),
      (cvtColorBGR2RGB img).getD r [] =
        (img.getD r []).map fun p => (p.2.2, p.2.1, p.1) := by
    intro img r
    unfold cvtColorBGR2RGB
    rcases Nat.lt_or_ge r img.length with hr | hr
    · rw [List.getD_eq_getElem _ _ (by simpa using hr), List.getElem_map,
        List.getD_eq_getElem _ _ hr]
    · rw [List.getD_eq_default _ _ (by simpa using hr), List.getD_eq_default _ _ hr]
      rfl
  refine ⟨rfl, fun img => rfl, fun img => by simp [cvtColorBGR2RGB], ?_, ?_⟩
  · intro img r
    rw [hrow]
    simp
  · intro img r c
    rw [hrow]
    rcases Nat.lt_or_ge c (img.getD r []).length with hc | hc
    · rw [List.getD_eq_getElem _ _ (by simpa using hc), List.getElem_map,
        List.getD_eq_getElem _ _ hc]
    · rw [List.getD_eq_default _ _ (by simpa using hc), List.getD_eq_default _ _ hc]

/-- C9: `interp1d` is total and memory safe on well-formed inputs: the
bounds-checked variant agrees with it (`some`, so every index lookup — the
clamped index and its successor — is in bounds and the slope division has a
nonzero denominator), the clamped index never exceeds `old_x.size(0) - 2`,
and with a positive eps and sorted knots every slope denominator is strictly
positive — in particular when consecutive `old_x` values are equal the
denominator is exactly eps, not zero. -/
theorem interp1d_total_safe (eps : ℚ) (oldx oldy newx : List ℚ) (heps : 0 < eps)
    (hlen : oldy.length = oldx.length) (h2 : 2 ≤ oldx.length)
    (hsorted : NondecrOn oldx) :
    interp1dSafe eps oldx oldy newx = some (interp1d eps oldx oldy newx) ∧
      (∀ x : ℚ, interpIdx oldx x + 1 ≤ oldx.length - 1) ∧
      (∀ k, k + 1 < oldx.length →
        0 < eps + (oldx.getD (k + 1) 0 - oldx.getD k 0)) := by
  have hden : ∀ k, k + 1 < oldx.length →
      0 < eps + (oldx.getD (k + 1) 0 - oldx.getD k 0) := by
    intro k hk
    have := nondecrOn_adj hsorted k hk
    linarith
  refine ⟨?_, fun x => by unfold interpIdx; omega, hden⟩
  unfold interp1dSafe interp1d
  apply traverseO_eq_some_map
  intro x
  have hi1 : interpIdx oldx x + 1 < oldx.length := interpIdx_add_one_lt oldx x h2
  unfold interpAtSafe
  rw [getElemQ_eq_getD (by omega : interpIdx oldx x < oldx.length),
    getElemQ_eq_getD hi1,
    getElemQ_eq_getD (by omega : interpIdx oldx x < oldy.length),
    getElemQ_eq_getD (by omega : interpIdx oldx x + 1 < oldy.length)]
  simp only [Option.some_bind]
  rw [if_neg (ne_of_gt (hden _ hi1))]
  rfl

/-- Witness for C9 on concrete sorted knots. -/
theorem interp1d_total_safe_witness :
    interp1dSafe eps32 [0, 1] [2, 5] [0, 1/2, 1] =
      some (interp1d eps32 [0, 1] [2, 5] [0, 1/2, 1]) :=
  (interp1d_total_safe eps32 [0, 1] [2, 5] [0, 1/2, 1] (by norm_num [eps32])
    (by decide) (by decide) (nondecrOn_of_pairwise (by decide))).1

end Anomalib
